import Mathlib

/-!
Verification of the xdr-serde library (RFC 4506 XDR serialization built on
the serde data model) against its specification.

The embedding models:
  - src/error.rs   : the Error enumeration;
  - src/ser.rs     : the writer-generic Serializer (to_bytes / to_writer),
                     including write_padded_bytes, write_opaque_variable and
                     the FixedOpaqueSerializer interception;
  - src/de.rs      : the slice-backed Deserializer (from_bytes /
                     from_bytes_partial), including take, read_u32 and
                     friends, read_padded_bytes, the compound access paths
                     and the FixedOpaqueSliceDe interception, plus the
                     read_padded_bytes of the Read-backed ReaderDeserializer;
  - src/fixed_opaque.rs : the sentinel-token routing, represented
                     structurally by the fixedOpaque value and type forms.

Serde values are modelled by the inductive family Value (what a Serialize
implementation presents to the serializer), and serde types by the family
Ty (the shape a Deserialize implementation requests).  Bytes are Nat
(always below 256 when produced by the code), machine integers are Nat or
Int with explicit two-complement conversion, and floats are carried as
their IEEE bit patterns, which is exact because the code moves them with
to_be_bytes / from_be_bytes only.
-/

namespace XdrSerde

/-- Error type of src/error.rs.  The i-o constructor is named ioErr here;
its payload is the sink error message, as in the source. -/
inductive Error where
  | Message (msg : String)
  | UnexpectedEof
  | LengthRequired
  | InvalidString
  | InvalidDiscriminant (v : Int)
  | InvalidBool (v : Nat)
  | InvalidOption (v : Nat)
  | LengthOverflow (max got : Nat)
  | InvalidPadding
  | Unsupported (reason : String)
  | ioErr (msg : String)
deriving DecidableEq, Repr

-- ── Big-endian byte conversions (to_be_bytes / from_be_bytes) ──────────────

/-- Big-endian 4-byte image of a u32.  Composes the Rust cast to u32 with
u32::to_be_bytes: each byte is reduced mod 256, so the function agrees with
the source for every Nat argument, truncating like an `as u32` cast. -/
def u32ToBytes (n : Nat) : List Nat :=
  [n / 2 ^ 24 % 256, n / 2 ^ 16 % 256, n / 2 ^ 8 % 256, n % 256]

/-- Big-endian 8-byte image of a u64 (u64::to_be_bytes). -/
def u64ToBytes (n : Nat) : List Nat :=
  [n / 2 ^ 56 % 256, n / 2 ^ 48 % 256, n / 2 ^ 40 % 256, n / 2 ^ 32 % 256,
   n / 2 ^ 24 % 256, n / 2 ^ 16 % 256, n / 2 ^ 8 % 256, n % 256]

/-- Big-endian bytes of an i32 (two-complement, i32::to_be_bytes). -/
def i32ToBytes (v : Int) : List Nat :=
  u32ToBytes (v % (2 ^ 32 : Int)).toNat

/-- Big-endian bytes of an i64 (two-complement, i64::to_be_bytes). -/
def i64ToBytes (v : Int) : List Nat :=
  u64ToBytes (v % (2 ^ 64 : Int)).toNat

/-- Recombine big-endian bytes into a Nat (uN::from_be_bytes). -/
def beToNat (bs : List Nat) : Nat :=
  bs.foldl (fun a b => a * 256 + b) 0

/-- Signed reading of a 32-bit word (i32::from_be_bytes). -/
def sign32 (w : Nat) : Int :=
  if w < 2 ^ 31 then (w : Int) else (w : Int) - 2 ^ 32

/-- Signed reading of a 64-bit word (i64::from_be_bytes). -/
def sign64 (w : Nat) : Int :=
  if w < 2 ^ 63 then (w : Int) else (w : Int) - 2 ^ 64

/-- Rust cast of an i32 value to i8: keep the low byte, two-complement. -/
def castI8 (x : Int) : Int :=
  let m := (x % (256 : Int)).toNat
  if m < 128 then (m : Int) else (m : Int) - 256

/-- Rust cast of an i32 value to i16: keep the low 16 bits, two-complement. -/
def castI16 (x : Int) : Int :=
  let m := (x % (2 ^ 16 : Int)).toNat
  if m < 2 ^ 15 then (m : Int) else (m : Int) - 2 ^ 16

-- ── The serde value model ──────────────────────────────────────────────────

mutual
/-- A value of the serde data model, as presented to the Serializer.
Bytes of strings, byte buffers and fixed opaques are listed explicitly
(a Rust String corresponds to a valid-UTF-8 byte list).  Floats carry
their IEEE bit pattern.  seqNoLen models serialize_seq(None), a sequence
whose length the Serialize impl cannot declare. -/
inductive Value where
  | vBool (b : Bool)
  | vU8 (n : Nat)
  | vU16 (n : Nat)
  | vU32 (n : Nat)
  | vU64 (n : Nat)
  | vI8 (v : Int)
  | vI16 (v : Int)
  | vI32 (v : Int)
  | vI64 (v : Int)
  | vF32 (bits : Nat)
  | vF64 (bits : Nat)
  | vChar (c : Nat)
  | vStr (bs : List Nat)
  | vBytes (bs : List Nat)
  | vNone
  | vSome (v : Value)
  | vUnit
  | vNewtype (v : Value)
  | vFixedOpaque (bs : List Nat)
  | vUnitVariant (idx : Nat)
  | vNewtypeVariant (idx : Nat) (v : Value)
  | vTupleVariant (idx : Nat) (fields : Values)
  | vStructVariant (idx : Nat) (fields : Values)
  | vTuple (fields : Values)
  | vSeq (elems : Values)
  | vSeqNoLen (elems : Values)
  | vMap (entries : Pairs)

/-- A list of serde values (fields of a tuple or elements of a sequence). -/
inductive Values where
  | nil
  | cons (v : Value) (vs : Values)

/-- A list of key-value entries of a serde map, in iteration order. -/
inductive Pairs where
  | nil
  | cons (k v : Value) (ps : Pairs)
end

/-- Number of values in a Values list. -/
def Values.length : Values → Nat
  | .nil => 0
  | .cons _ vs => Values.length vs + 1

/-- Number of entries in a Pairs list. -/
def Pairs.length : Pairs → Nat
  | .nil => 0
  | .cons _ _ ps => Pairs.length ps + 1

/-- A Values list of n copies of the same value. -/
def Values.replicate : Nat → Value → Values
  | 0, _ => .nil
  | n + 1, v => .cons v (Values.replicate n v)

-- ── Serializer (src/ser.rs) ────────────────────────────────────────────────

/-- A byte sink, as the W: Write parameter of Serializer: consumes a chunk,
returns the new sink state or an i-o failure message. -/
def Writer (σ : Type) : Type := σ → List Nat → Except String σ

/-- The Vec sink used by to_bytes: appends and never fails. -/
def appendW : Writer (List Nat) := fun s bs => .ok (s ++ bs)

/-- Serializer::write_all: pass the chunk to the sink, wrapping sink errors
into Error::Io. -/
def write_all {σ : Type} (w : Writer σ) (s : σ) (bs : List Nat) :
    Except Error σ :=
  match w s bs with
  | .ok s1 => .ok s1
  | .error msg => .error (.ioErr msg)

/-- Serializer::write_u32 (composed with the call-site `as u32` casts,
which u32ToBytes performs). -/
def write_u32 {σ : Type} (w : Writer σ) (s : σ) (n : Nat) : Except Error σ :=
  write_all w s (u32ToBytes n)

/-- Serializer::write_i32. -/
def write_i32 {σ : Type} (w : Writer σ) (s : σ) (v : Int) : Except Error σ :=
  write_all w s (i32ToBytes v)

/-- Serializer::write_u64. -/
def write_u64 {σ : Type} (w : Writer σ) (s : σ) (n : Nat) : Except Error σ :=
  write_all w s (u64ToBytes n)

/-- Serializer::write_i64. -/
def write_i64 {σ : Type} (w : Writer σ) (s : σ) (v : Int) : Except Error σ :=
  write_all w s (i64ToBytes v)

/-- Serializer::write_padded_bytes: the bytes, then (4 - len mod 4) mod 4
zero bytes, exactly as the source writes &[0u8;3][..4-remainder]. -/
def write_padded_bytes {σ : Type} (w : Writer σ) (s : σ) (bs : List Nat) :
    Except Error σ := do
  let s1 ← write_all w s bs
  let remainder := bs.length % 4
  if remainder ≠ 0 then
    write_all w s1 (List.replicate (4 - remainder) 0)
  else
    pure s1

/-- Serializer::write_opaque_variable: guard the length against u32::MAX,
then 4-byte length prefix and padded data.  On overflow both fields of the
error carry the saturated value u32::MAX. -/
def write_opaque_variable {σ : Type} (w : Writer σ) (s : σ) (bs : List Nat) :
    Except Error σ :=
  if bs.length > 2 ^ 32 - 1 then
    .error (.LengthOverflow (2 ^ 32 - 1) (2 ^ 32 - 1))
  else do
    let s1 ← write_u32 w s bs.length
    write_padded_bytes w s1 bs

mutual
/-- The serde::Serializer impl of src/ser.rs, one case per data-model kind.
vFixedOpaque is the serialize_newtype_struct(FIXED_OPAQUE_TOKEN) path: the
FixedOpaqueSerializer routes the inner serialize_bytes call to
write_padded_bytes with no length prefix. -/
def serVal {σ : Type} (w : Writer σ) (s : σ) : Value → Except Error σ
  | .vBool b => write_u32 w s (if b then 1 else 0)
  | .vU8 n => write_u32 w s n
  | .vU16 n => write_u32 w s n
  | .vU32 n => write_u32 w s n
  | .vU64 n => write_u64 w s n
  | .vI8 v => write_i32 w s v
  | .vI16 v => write_i32 w s v
  | .vI32 v => write_i32 w s v
  | .vI64 v => write_i64 w s v
  | .vF32 bits => write_all w s (u32ToBytes bits)
  | .vF64 bits => write_all w s (u64ToBytes bits)
  | .vChar c => write_u32 w s c
  | .vStr bs => write_opaque_variable w s bs
  | .vBytes bs => write_opaque_variable w s bs
  | .vNone => write_u32 w s 0
  | .vSome v => do serVal w (← write_u32 w s 1) v
  | .vUnit => pure s
  | .vNewtype v => serVal w s v
  | .vFixedOpaque bs => write_padded_bytes w s bs
  | .vUnitVariant idx => write_u32 w s idx
  | .vNewtypeVariant idx v => do serVal w (← write_u32 w s idx) v
  | .vTupleVariant idx fs => do serVals w (← write_u32 w s idx) fs
  | .vStructVariant idx fs => do serVals w (← write_u32 w s idx) fs
  | .vTuple fs => serVals w s fs
  | .vSeq es => do serVals w (← write_u32 w s (Values.length es)) es
  | .vSeqNoLen _ => .error .LengthRequired
  | .vMap ps => do serPairs w (← write_u32 w s (Pairs.length ps)) ps

/-- Elements or fields serialized consecutively (SerializeSeq /
SerializeTuple / SerializeStruct forwarding impls). -/
def serVals {σ : Type} (w : Writer σ) (s : σ) : Values → Except Error σ
  | .nil => pure s
  | .cons v vs => do serVals w (← serVal w s v) vs

/-- Map entries serialized as alternating key and value (SerializeMap). -/
def serPairs {σ : Type} (w : Writer σ) (s : σ) : Pairs → Except Error σ
  | .nil => pure s
  | .cons k v ps => do serPairs w (← serVal w (← serVal w s k) v) ps
end

/-- fn to_bytes: serialize into a fresh Vec. -/
def to_bytes (v : Value) : Except Error (List Nat) :=
  serVal appendW [] v

/-- fn to_writer: serialize into the caller-supplied sink. -/
def to_writer {σ : Type} (w : Writer σ) (s : σ) (v : Value) :
    Except Error σ :=
  serVal w s v

-- ── The serde type model (what Deserialize requests) ───────────────────────

mutual
/-- The shape a Deserialize implementation asks the deserializer for, one
constructor per deserialize_* entry point used by derived impls.
tFixedOpaque models a field annotated with the fixed_opaque helper:
deserialize_newtype_struct(FIXED_OPAQUE_TOKEN) followed by the inner
deserialize_tuple(N) served by FixedOpaqueSliceDe. -/
inductive Ty where
  | tBool
  | tU8
  | tU16
  | tU32
  | tU64
  | tI8
  | tI16
  | tI32
  | tI64
  | tF32
  | tF64
  | tChar
  | tString
  | tBytes
  | tUnit
  | tOpt (t : Ty)
  | tNewtype (t : Ty)
  | tFixedOpaque (n : Nat)
  | tSeq (t : Ty)
  | tMap (k v : Ty)
  | tTuple (ts : Tys)
  | tStruct (ts : Tys)
  | tEnum (arms : Arms)

/-- Field types of a tuple or struct, in declaration order. -/
inductive Tys where
  | nil
  | cons (t : Ty) (ts : Tys)

/-- One enum arm shape (unit, newtype, tuple or struct variant). -/
inductive Arm where
  | unitArm
  | newtypeArm (t : Ty)
  | tupleArm (ts : Tys)
  | structArm (ts : Tys)

/-- The arms of an enum, zero-based in declaration order. -/
inductive Arms where
  | nil
  | cons (a : Arm) (rest : Arms)
end

/-- Arm at a zero-based index, if it exists. -/
def armAt : Arms → Nat → Option Arm
  | .nil, _ => none
  | .cons a _, 0 => some a
  | .cons _ rest, i + 1 => armAt rest i

-- ── Slice-backed Deserializer state (src/de.rs) ────────────────────────────

/-- Deserializer state: the borrowed input and a cursor. -/
structure DSt where
  input : List Nat
  pos : Nat
deriving DecidableEq, Repr

/-- Unconsumed tail of the input (Deserializer::remaining). -/
def DSt.remaining (st : DSt) : List Nat := st.input.drop st.pos

/-- Deserializer::take with the mutation made explicit: if fewer than n
bytes remain the cursor is untouched and UnexpectedEof is returned,
otherwise the n bytes starting at pos are returned and pos advances by n. -/
def takeMut (n : Nat) (st : DSt) : Except Error (List Nat) × DSt :=
  if st.pos + n > st.input.length then
    (.error .UnexpectedEof, st)
  else
    (.ok ((st.input.drop st.pos).take n), { st with pos := st.pos + n })

/-- Deserializer::take in the error-propagating form used by the callers. -/
def take (n : Nat) (st : DSt) : Except Error (List Nat × DSt) :=
  match takeMut n st with
  | (.ok bs, st1) => .ok (bs, st1)
  | (.error e, _) => .error e

/-- Deserializer::read_u32. -/
def read_u32 (st : DSt) : Except Error (Nat × DSt) := do
  let (bs, st1) ← take 4 st
  .ok (beToNat bs, st1)

/-- Deserializer::read_i32. -/
def read_i32 (st : DSt) : Except Error (Int × DSt) := do
  let (bs, st1) ← take 4 st
  .ok (sign32 (beToNat bs), st1)

/-- Deserializer::read_u64. -/
def read_u64 (st : DSt) : Except Error (Nat × DSt) := do
  let (bs, st1) ← take 8 st
  .ok (beToNat bs, st1)

/-- Deserializer::read_i64. -/
def read_i64 (st : DSt) : Except Error (Int × DSt) := do
  let (bs, st1) ← take 8 st
  .ok (sign64 (beToNat bs), st1)

/-- Deserializer::read_padded_bytes: n data bytes, then the 0 to 3 padding
bytes, which are consumed and discarded without inspection. -/
def read_padded_bytes (n : Nat) (st : DSt) :
    Except Error (List Nat × DSt) := do
  let (data, st1) ← take n st
  if n % 4 ≠ 0 then do
    let (_, st2) ← take (4 - n % 4) st1
    .ok (data, st2)
  else
    .ok (data, st1)

/-- Deserializer::read_variable_opaque: 4-byte count then padded data. -/
def read_variable_opaque (st : DSt) : Except Error (List Nat × DSt) := do
  let (n, st1) ← read_u32 st
  read_padded_bytes n st1

-- ── Unicode validation used on decode ──────────────────────────────────────

/-- UTF-8 continuation byte test. -/
def isCont (b : Nat) : Bool := 0x80 ≤ b && b ≤ 0xBF

/-- UTF-8 validity of a byte list, as std::str::from_utf8 checks it
(RFC 3629: no overlongs, no surrogates, max U+10FFFF). -/
def isValidUtf8 : List Nat → Bool
  | [] => true
  | b :: rest =>
    if b ≤ 0x7F then isValidUtf8 rest
    else if 0xC2 ≤ b && b ≤ 0xDF then
      match rest with
      | c1 :: r => isCont c1 && isValidUtf8 r
      | [] => false
    else if b = 0xE0 then
      match rest with
      | c1 :: c2 :: r =>
          (0xA0 ≤ c1 && c1 ≤ 0xBF) && isCont c2 && isValidUtf8 r
      | _ => false
    else if (0xE1 ≤ b && b ≤ 0xEC) || (0xEE ≤ b && b ≤ 0xEF) then
      match rest with
      | c1 :: c2 :: r => isCont c1 && isCont c2 && isValidUtf8 r
      | _ => false
    else if b = 0xED then
      match rest with
      | c1 :: c2 :: r =>
          (0x80 ≤ c1 && c1 ≤ 0x9F) && isCont c2 && isValidUtf8 r
      | _ => false
    else if b = 0xF0 then
      match rest with
      | c1 :: c2 :: c3 :: r =>
          (0x90 ≤ c1 && c1 ≤ 0xBF) && isCont c2 && isCont c3 &&
            isValidUtf8 r
      | _ => false
    else if 0xF1 ≤ b && b ≤ 0xF3 then
      match rest with
      | c1 :: c2 :: c3 :: r =>
          isCont c1 && isCont c2 && isCont c3 && isValidUtf8 r
      | _ => false
    else if b = 0xF4 then
      match rest with
      | c1 :: c2 :: c3 :: r =>
          (0x80 ≤ c1 && c1 ≤ 0x8F) && isCont c2 && isCont c3 &&
            isValidUtf8 r
      | _ => false
    else false

/-- Unicode scalar test of char::from_u32: below 0x110000 and not a
surrogate. -/
def isScalar (c : Nat) : Bool :=
  c < 0xD800 || (0xE000 ≤ c && c < 0x110000)

-- ── The Deserializer impl (src/de.rs, slice flavour) ───────────────────────

mutual
/-- The de::Deserializer impl for the slice-backed Deserializer, one case
per requested shape.  Narrow integers are read as a full 4-byte word and
truncated by arithmetic cast; tFixedOpaque is the FixedOpaqueSliceDe path:
read_padded_bytes(n) and serve the raw bytes. -/
def de : Ty → DSt → Except Error (Value × DSt)
  | .tBool, st => do
    let (w, st1) ← read_u32 st
    match w with
    | 0 => .ok (.vBool false, st1)
    | 1 => .ok (.vBool true, st1)
    | v => .error (.InvalidBool v)
  | .tU8, st => do
    let (w, st1) ← read_u32 st
    .ok (.vU8 (w % 256), st1)
  | .tU16, st => do
    let (w, st1) ← read_u32 st
    .ok (.vU16 (w % 2 ^ 16), st1)
  | .tU32, st => do
    let (w, st1) ← read_u32 st
    .ok (.vU32 w, st1)
  | .tU64, st => do
    let (w, st1) ← read_u64 st
    .ok (.vU64 w, st1)
  | .tI8, st => do
    let (x, st1) ← read_i32 st
    .ok (.vI8 (castI8 x), st1)
  | .tI16, st => do
    let (x, st1) ← read_i32 st
    .ok (.vI16 (castI16 x), st1)
  | .tI32, st => do
    let (x, st1) ← read_i32 st
    .ok (.vI32 x, st1)
  | .tI64, st => do
    let (x, st1) ← read_i64 st
    .ok (.vI64 x, st1)
  | .tF32, st => do
    let (bs, st1) ← take 4 st
    .ok (.vF32 (beToNat bs), st1)
  | .tF64, st => do
    let (bs, st1) ← take 8 st
    .ok (.vF64 (beToNat bs), st1)
  | .tChar, st => do
    let (w, st1) ← read_u32 st
    if isScalar w then .ok (.vChar w, st1) else .error .InvalidString
  | .tString, st => do
    let (bs, st1) ← read_variable_opaque st
    if isValidUtf8 bs then .ok (.vStr bs, st1) else .error .InvalidString
  | .tBytes, st => do
    let (bs, st1) ← read_variable_opaque st
    .ok (.vBytes bs, st1)
  | .tUnit, st => .ok (.vUnit, st)
  | .tOpt t, st => do
    let (w, st1) ← read_u32 st
    match w with
    | 0 => .ok (.vNone, st1)
    | 1 => do
      let (v, st2) ← de t st1
      .ok (.vSome v, st2)
    | n => .error (.InvalidOption n)
  | .tNewtype t, st => do
    let (v, st1) ← de t st
    .ok (.vNewtype v, st1)
  | .tFixedOpaque n, st => do
    let (bs, st1) ← read_padded_bytes n st
    .ok (.vFixedOpaque bs, st1)
  | .tSeq t, st => do
    let (c, st1) ← read_u32 st
    let (es, st2) ← deMany t c st1
    .ok (.vSeq es, st2)
  | .tMap k v, st => do
    let (c, st1) ← read_u32 st
    let (ps, st2) ← dePairs k v c st1
    .ok (.vMap ps, st2)
  | .tTuple ts, st => do
    let (fs, st1) ← deFields ts st
    .ok (.vTuple fs, st1)
  | .tStruct ts, st => do
    let (fs, st1) ← deFields ts st
    .ok (.vTuple fs, st1)
  | .tEnum arms, st => do
    let (idx, st1) ← read_u32 st
    deArms arms idx idx st1
termination_by t _ => (2 * sizeOf t, 0)

/-- Fields of a tuple or struct decoded in order (SliceSeqAccess driven by
the derived visitor for a fixed field count). -/
def deFields : Tys → DSt → Except Error (Values × DSt)
  | .nil, st => .ok (.nil, st)
  | .cons t ts, st => do
    let (v, st1) ← de t st
    let (vs, st2) ← deFields ts st1
    .ok (.cons v vs, st2)
termination_by ts _ => (2 * sizeOf ts, 0)

/-- Count-many elements of one type (SliceSeqAccess for a sequence). -/
def deMany (t : Ty) : Nat → DSt → Except Error (Values × DSt)
  | 0, st => .ok (.nil, st)
  | n + 1, st => do
    let (v, st1) ← de t st
    let (vs, st2) ← deMany t n st1
    .ok (.cons v vs, st2)
termination_by n _ => (2 * sizeOf t + 1, n)

/-- Count-many key-value entries (SliceMapAccess). -/
def dePairs (k v : Ty) : Nat → DSt → Except Error (Pairs × DSt)
  | 0, st => .ok (.nil, st)
  | n + 1, st => do
    let (kv, st1) ← de k st
    let (vv, st2) ← de v st1
    let (ps, st3) ← dePairs k v n st2
    .ok (.cons kv vv ps, st3)
termination_by n _ => (2 * (sizeOf k + sizeOf v) + 1, n)

/-- Arm selected by the wire discriminant (SliceEnumAccess: the u32 index
is fed to the derived variant visitor; an out-of-range index is rejected
by the derived impl with a serde custom error). -/
def deArms : Arms → Nat → Nat → DSt → Except Error (Value × DSt)
  | .nil, _, _, _ => .error (.Message "invalid variant index")
  | .cons a _, 0, idx, st =>
    match a with
    | .unitArm => .ok (.vUnitVariant idx, st)
    | .newtypeArm t => do
      let (v, st1) ← de t st
      .ok (.vNewtypeVariant idx v, st1)
    | .tupleArm ts => do
      let (fs, st1) ← deFields ts st
      .ok (.vTupleVariant idx fs, st1)
    | .structArm ts => do
      let (fs, st1) ← deFields ts st
      .ok (.vStructVariant idx fs, st1)
  | .cons _ rest, i + 1, idx, st => deArms rest i idx st
termination_by arms _ _ _ => (2 * sizeOf arms, 0)
end

/-- fn from_bytes: decode a value, ignoring any unconsumed tail. -/
def from_bytes (t : Ty) (input : List Nat) : Except Error Value :=
  match de t ⟨input, 0⟩ with
  | .ok (v, _) => .ok v
  | .error e => .error e

/-- fn from_bytes_partial: decode a value and also return the unread
tail. -/
def from_bytes_partial (t : Ty) (input : List Nat) :
    Except Error (Value × List Nat) :=
  match de t ⟨input, 0⟩ with
  | .ok (v, st) => .ok (v, st.remaining)
  | .error e => .error e

-- ── Reader-backed read_padded_bytes (src/de.rs, ReaderDeserializer) ────────

/-- Abstract pull source modelling ReaderDeserializer::read_exact_buf: from
a source state, produce n bytes and the next state, or fail. -/
def ReadSrc (ρ : Type) : Type := ρ → Nat → Except Error (List Nat × ρ)

/-- ReaderDeserializer::read_padded_bytes: n data bytes, then the padding
chunk, whose contents are dropped on the floor. -/
def reader_read_padded_bytes {ρ : Type} (rd : ReadSrc ρ) (n : Nat) (r : ρ) :
    Except Error (List Nat × ρ) := do
  let (data, r1) ← rd r n
  if n % 4 ≠ 0 then do
    let (_, r2) ← rd r1 (4 - n % 4)
    .ok (data, r2)
  else
    .ok (data, r1)

-- ── Bijective host representation ──────────────────────────────────────────

mutual
/-- The value inhabits the type with a bijective host representation: all
machine integers are in range, bytes are bytes, chars are Unicode scalars,
strings are valid UTF-8, lengths fit the unsigned 32-bit count, fixed
opaques have exactly their declared size, and enum values name an existing
arm of the matching shape.  This is the precondition of the round-trip
claim. -/
def wf : Ty → Value → Bool
  | t, .vBool _ => match t with | .tBool => true | _ => false
  | t, .vU8 n => match t with | .tU8 => decide (n < 2 ^ 8) | _ => false
  | t, .vU16 n => match t with | .tU16 => decide (n < 2 ^ 16) | _ => false
  | t, .vU32 n => match t with | .tU32 => decide (n < 2 ^ 32) | _ => false
  | t, .vU64 n => match t with | .tU64 => decide (n < 2 ^ 64) | _ => false
  | t, .vI8 x =>
    match t with
    | .tI8 => decide (-(2 ^ 7) ≤ x ∧ x < 2 ^ 7)
    | _ => false
  | t, .vI16 x =>
    match t with
    | .tI16 => decide (-(2 ^ 15) ≤ x ∧ x < 2 ^ 15)
    | _ => false
  | t, .vI32 x =>
    match t with
    | .tI32 => decide (-(2 ^ 31) ≤ x ∧ x < 2 ^ 31)
    | _ => false
  | t, .vI64 x =>
    match t with
    | .tI64 => decide (-(2 ^ 63) ≤ x ∧ x < 2 ^ 63)
    | _ => false
  | t, .vF32 bits => match t with | .tF32 => decide (bits < 2 ^ 32) | _ => false
  | t, .vF64 bits => match t with | .tF64 => decide (bits < 2 ^ 64) | _ => false
  | t, .vChar c => match t with | .tChar => isScalar c | _ => false
  | t, .vStr bs =>
    match t with
    | .tString =>
      isValidUtf8 bs && decide (bs.length < 2 ^ 32) &&
        bs.all (fun b => decide (b < 256))
    | _ => false
  | t, .vBytes bs =>
    match t with
    | .tBytes =>
      decide (bs.length < 2 ^ 32) && bs.all (fun b => decide (b < 256))
    | _ => false
  | t, .vNone => match t with | .tOpt _ => true | _ => false
  | t, .vSome v => match t with | .tOpt t1 => wf t1 v | _ => false
  | t, .vUnit => match t with | .tUnit => true | _ => false
  | t, .vNewtype v => match t with | .tNewtype t1 => wf t1 v | _ => false
  | t, .vFixedOpaque bs =>
    match t with
    | .tFixedOpaque n =>
      decide (bs.length = n) && bs.all (fun b => decide (b < 256))
    | _ => false
  | t, .vUnitVariant idx =>
    match t with
    | .tEnum arms =>
      match armAt arms idx with
      | some .unitArm => decide (idx < 2 ^ 32)
      | _ => false
    | _ => false
  | t, .vNewtypeVariant idx v =>
    match t with
    | .tEnum arms =>
      match armAt arms idx with
      | some (.newtypeArm t1) => decide (idx < 2 ^ 32) && wf t1 v
      | _ => false
    | _ => false
  | t, .vTupleVariant idx fs =>
    match t with
    | .tEnum arms =>
      match armAt arms idx with
      | some (.tupleArm ts) => decide (idx < 2 ^ 32) && wfFields ts fs
      | _ => false
    | _ => false
  | t, .vStructVariant idx fs =>
    match t with
    | .tEnum arms =>
      match armAt arms idx with
      | some (.structArm ts) => decide (idx < 2 ^ 32) && wfFields ts fs
      | _ => false
    | _ => false
  | t, .vTuple fs =>
    match t with
    | .tTuple ts => wfFields ts fs
    | .tStruct ts => wfFields ts fs
    | _ => false
  | t, .vSeq es =>
    match t with
    | .tSeq t1 => decide (Values.length es < 2 ^ 32) && wfMany t1 es
    | _ => false
  | _, .vSeqNoLen _ => false
  | t, .vMap ps =>
    match t with
    | .tMap k v => decide (Pairs.length ps < 2 ^ 32) && wfPairs k v ps
    | _ => false

/-- Fields against their declared types, position by position. -/
def wfFields : Tys → Values → Bool
  | .nil, .nil => true
  | .cons t ts, .cons v vs => wf t v && wfFields ts vs
  | _, _ => false

/-- Sequence elements all of the element type. -/
def wfMany : Ty → Values → Bool
  | _, .nil => true
  | t, .cons v vs => wf t v && wfMany t vs

/-- Map entries keyed and valued at the declared types. -/
def wfPairs : Ty → Ty → Pairs → Bool
  | _, _, .nil => true
  | k, v, .cons kv vv ps => wf k kv && wf v vv && wfPairs k v ps
end

-- ── Specification shorthands for the round-trip development ────────────────

/-- The serializer, run on the Vec sink, emits exactly bs after any
already-written prefix. -/
def SerIs (v : Value) (bs : List Nat) : Prop :=
  ∀ acc, serVal appendW acc v = .ok (acc ++ bs)

/-- Same for a list of consecutive values. -/
def SersIs (vs : Values) (bs : List Nat) : Prop :=
  ∀ acc, serVals appendW acc vs = .ok (acc ++ bs)

/-- Same for map entries. -/
def SerPairsIs (ps : Pairs) (bs : List Nat) : Prop :=
  ∀ acc, serPairs appendW acc ps = .ok (acc ++ bs)

/-- Decoding at type t from any position whose tail starts with bs yields
v and advances the cursor past bs, whatever follows. -/
def DeIs (t : Ty) (v : Value) (bs : List Nat) : Prop :=
  ∀ input pos tail, pos ≤ input.length → input.drop pos = bs ++ tail →
    de t ⟨input, pos⟩ = .ok (v, ⟨input, pos + bs.length⟩)

/-- deFields analogue of DeIs. -/
def DeFieldsIs (ts : Tys) (vs : Values) (bs : List Nat) : Prop :=
  ∀ input pos tail, pos ≤ input.length → input.drop pos = bs ++ tail →
    deFields ts ⟨input, pos⟩ = .ok (vs, ⟨input, pos + bs.length⟩)

/-- deMany analogue of DeIs, at the count of the decoded list. -/
def DeManyIs (t : Ty) (vs : Values) (bs : List Nat) : Prop :=
  ∀ input pos tail, pos ≤ input.length → input.drop pos = bs ++ tail →
    deMany t (Values.length vs) ⟨input, pos⟩ =
      .ok (vs, ⟨input, pos + bs.length⟩)

/-- dePairs analogue of DeIs. -/
def DePairsIs (k v : Ty) (ps : Pairs) (bs : List Nat) : Prop :=
  ∀ input pos tail, pos ≤ input.length → input.drop pos = bs ++ tail →
    dePairs k v (Pairs.length ps) ⟨input, pos⟩ =
      .ok (ps, ⟨input, pos + bs.length⟩)

/-- Padding length to the next 4-byte boundary. -/
def padLen (n : Nat) : Nat := (4 - n % 4) % 4

-- ── Basic lemmas ───────────────────────────────────────────────────────────

theorem ok_bind {α β : Type} (a : α) (f : α → Except Error β) :
    (Except.ok a >>= f) = f a := rfl

theorem error_bind {α β : Type} (e : Error) (f : α → Except Error β) :
    (Except.error e >>= f : Except Error β) = .error e := rfl

theorem u32ToBytes_length (n : Nat) : (u32ToBytes n).length = 4 := rfl

theorem u64ToBytes_length (n : Nat) : (u64ToBytes n).length = 8 := rfl

theorem beToNat_u32ToBytes (n : Nat) : beToNat (u32ToBytes n) = n % 2 ^ 32 := by
  simp only [beToNat, u32ToBytes, List.foldl]
  omega

theorem beToNat_u64ToBytes (n : Nat) : beToNat (u64ToBytes n) = n % 2 ^ 64 := by
  simp only [beToNat, u64ToBytes, List.foldl]
  omega

theorem beToNat_u32ToBytes_small {n : Nat} (h : n < 2 ^ 32) :
    beToNat (u32ToBytes n) = n := by
  rw [beToNat_u32ToBytes]; omega

theorem beToNat_u64ToBytes_small {n : Nat} (h : n < 2 ^ 64) :
    beToNat (u64ToBytes n) = n := by
  rw [beToNat_u64ToBytes]; omega

theorem beToNat_i32ToBytes {v : Int} (h1 : -(2 ^ 31) ≤ v) (h2 : v < 2 ^ 31) :
    sign32 (beToNat (i32ToBytes v)) = v := by
  simp only [i32ToBytes, sign32, beToNat_u32ToBytes]
  split <;> omega

theorem beToNat_i64ToBytes {v : Int} (h1 : -(2 ^ 63) ≤ v) (h2 : v < 2 ^ 63) :
    sign64 (beToNat (i64ToBytes v)) = v := by
  simp only [i64ToBytes, sign64, beToNat_u64ToBytes]
  split <;> omega

theorem castI8_small {v : Int} (h1 : -(2 ^ 7) ≤ v) (h2 : v < 2 ^ 7) :
    castI8 v = v := by
  simp only [castI8]
  split <;> omega

theorem castI16_small {v : Int} (h1 : -(2 ^ 15) ≤ v) (h2 : v < 2 ^ 15) :
    castI16 v = v := by
  simp only [castI16]
  split <;> omega

theorem bound_shift {input chunk rest : List Nat} {pos : Nat}
    (hp : pos ≤ input.length) (hd : input.drop pos = chunk ++ rest) :
    pos + chunk.length ≤ input.length := by
  have := congrArg List.length hd
  simp [List.length_drop] at this
  omega

theorem drop_shift {input chunk rest : List Nat} {pos : Nat}
    (hd : input.drop pos = chunk ++ rest) :
    input.drop (pos + chunk.length) = rest := by
  have : input.drop (pos + chunk.length) =
      (input.drop pos).drop chunk.length := by
    rw [List.drop_drop, Nat.add_comm]
  rw [this, hd, List.drop_left]

theorem take_spec {input chunk rest : List Nat} {pos n : Nat}
    (hn : chunk.length = n)
    (hp : pos ≤ input.length) (hd : input.drop pos = chunk ++ rest) :
    take n ⟨input, pos⟩ = .ok (chunk, ⟨input, pos + n⟩) := by
  have hb : pos + n ≤ input.length := by
    have := bound_shift hp hd; omega
  simp only [take, takeMut]
  rw [if_neg (by omega)]
  rw [hd, ← hn, List.take_left]

-- ── Output characterization of the primitive writes on the Vec sink ────────

theorem write_all_append (acc bs : List Nat) :
    write_all appendW acc bs = .ok (acc ++ bs) := rfl

theorem write_u32_append (acc : List Nat) (n : Nat) :
    write_u32 appendW acc n = .ok (acc ++ u32ToBytes n) := rfl

theorem write_u64_append (acc : List Nat) (n : Nat) :
    write_u64 appendW acc n = .ok (acc ++ u64ToBytes n) := rfl

theorem write_i32_append (acc : List Nat) (v : Int) :
    write_i32 appendW acc v = .ok (acc ++ i32ToBytes v) := rfl

theorem write_i64_append (acc : List Nat) (v : Int) :
    write_i64 appendW acc v = .ok (acc ++ i64ToBytes v) := rfl

theorem write_padded_bytes_append (acc data : List Nat) :
    write_padded_bytes appendW acc data =
      .ok (acc ++ (data ++ List.replicate (padLen data.length) 0)) := by
  simp only [write_padded_bytes, write_all_append, ok_bind]
  by_cases h : data.length % 4 = 0
  · rw [if_neg (by omega)]
    have h0 : padLen data.length = 0 := by simp only [padLen]; omega
    rw [h0]
    simp only [List.replicate_zero, List.append_nil]
    rfl
  · rw [if_pos (by omega)]
    have h1 : padLen data.length = 4 - data.length % 4 := by
      simp only [padLen]; omega
    rw [h1, List.append_assoc]

theorem write_opaque_variable_append {data : List Nat} (acc : List Nat)
    (h : data.length < 2 ^ 32) :
    write_opaque_variable appendW acc data =
      .ok (acc ++ (u32ToBytes data.length ++
        (data ++ List.replicate (padLen data.length) 0))) := by
  simp only [write_opaque_variable]
  rw [if_neg (by omega)]
  simp only [write_u32_append, ok_bind, write_padded_bytes_append,
    List.append_assoc]

-- ── Input characterization of the primitive reads ──────────────────────────

theorem read_u32_spec {input tail : List Nat} {pos n : Nat} (hn : n < 2 ^ 32)
    (hp : pos ≤ input.length) (hd : input.drop pos = u32ToBytes n ++ tail) :
    read_u32 ⟨input, pos⟩ = .ok (n, ⟨input, pos + 4⟩) := by
  simp only [read_u32, take_spec (u32ToBytes_length n) hp hd, ok_bind]
  rw [beToNat_u32ToBytes_small hn]

theorem read_u64_spec {input tail : List Nat} {pos n : Nat} (hn : n < 2 ^ 64)
    (hp : pos ≤ input.length) (hd : input.drop pos = u64ToBytes n ++ tail) :
    read_u64 ⟨input, pos⟩ = .ok (n, ⟨input, pos + 8⟩) := by
  simp only [read_u64, take_spec (u64ToBytes_length n) hp hd, ok_bind]
  rw [beToNat_u64ToBytes_small hn]

theorem read_i32_spec {input tail : List Nat} {pos : Nat} {v : Int}
    (h1 : -(2 ^ 31) ≤ v) (h2 : v < 2 ^ 31)
    (hp : pos ≤ input.length) (hd : input.drop pos = i32ToBytes v ++ tail) :
    read_i32 ⟨input, pos⟩ = .ok (v, ⟨input, pos + 4⟩) := by
  have hl : (i32ToBytes v).length = 4 := rfl
  simp only [read_i32, take_spec hl hp hd, ok_bind]
  rw [beToNat_i32ToBytes h1 h2]

theorem read_i64_spec {input tail : List Nat} {pos : Nat} {v : Int}
    (h1 : -(2 ^ 63) ≤ v) (h2 : v < 2 ^ 63)
    (hp : pos ≤ input.length) (hd : input.drop pos = i64ToBytes v ++ tail) :
    read_i64 ⟨input, pos⟩ = .ok (v, ⟨input, pos + 8⟩) := by
  have hl : (i64ToBytes v).length = 8 := rfl
  simp only [read_i64, take_spec hl hp hd, ok_bind]
  rw [beToNat_i64ToBytes h1 h2]

/-- read_padded_bytes returns the n data bytes and skips a padding chunk of
the right size whatever its contents. -/
theorem read_padded_bytes_spec {input data pad tail : List Nat} {pos n : Nat}
    (hdl : data.length = n) (hpl : pad.length = padLen n)
    (hp : pos ≤ input.length)
    (hd : input.drop pos = data ++ (pad ++ tail)) :
    read_padded_bytes n ⟨input, pos⟩ =
      .ok (data, ⟨input, pos + n + padLen n⟩) := by
  simp only [read_padded_bytes, take_spec hdl hp hd, ok_bind]
  by_cases h4 : n % 4 = 0
  · rw [if_neg (by omega)]
    have h0 : padLen n = 0 := by simp only [padLen]; omega
    rw [h0]
    simp
  · rw [if_pos (by omega)]
    have hpl4 : padLen n = 4 - n % 4 := by simp [padLen]; omega
    have hp2 : pos + n ≤ input.length := by
      have := bound_shift hp hd; omega
    have hd2 : input.drop (pos + n) = pad ++ tail := by
      have := drop_shift hd; rwa [hdl] at this
    rw [take_spec (by omega : pad.length = 4 - n % 4) hp2 hd2, ok_bind]
    rw [hpl4]

/-- read_variable_opaque against a well-formed wire image. -/
theorem read_variable_opaque_spec {input data pad tail : List Nat} {pos : Nat}
    (hn : data.length < 2 ^ 32) (hpl : pad.length = padLen data.length)
    (hp : pos ≤ input.length)
    (hd : input.drop pos =
      u32ToBytes data.length ++ (data ++ (pad ++ tail))) :
    read_variable_opaque ⟨input, pos⟩ =
      .ok (data, ⟨input, pos + 4 + data.length + padLen data.length⟩) := by
  have hp2 : pos + 4 ≤ input.length := by
    have := bound_shift hp hd
    simpa [u32ToBytes_length] using this
  have hd2 : input.drop (pos + 4) = data ++ (pad ++ tail) := by
    have := drop_shift hd
    simpa [u32ToBytes_length] using this
  simp only [ read_variable_opaque, read_u32_spec hn hp hd, ok_bind]
  rw [read_padded_bytes_spec rfl hpl hp2 hd2]

-- ── Enum arm dispatch ──────────────────────────────────────────────────────

/-- The decode of one arm payload, as deArms performs it at the selected
index. -/
def armDecode (a : Arm) (idx : Nat) (st : DSt) : Except Error (Value × DSt) :=
  match a with
  | .unitArm => .ok (.vUnitVariant idx, st)
  | .newtypeArm t => do
    let (v, st1) ← de t st
    .ok (.vNewtypeVariant idx v, st1)
  | .tupleArm ts => do
    let (fs, st1) ← deFields ts st
    .ok (.vTupleVariant idx fs, st1)
  | .structArm ts => do
    let (fs, st1) ← deFields ts st
    .ok (.vStructVariant idx fs, st1)

theorem deArms_eq {arms : Arms} {i : Nat} {a : Arm}
    (h : armAt arms i = some a) (idx : Nat) (st : DSt) :
    deArms arms i idx st = armDecode a idx st :=
  match arms, i, h with
  | .nil, i, h => by simp [armAt] at h
  | .cons a0 _, 0, h => by
    simp only [armAt, Option.some.injEq] at h
    subst h
    cases a0 <;> simp [deArms, armDecode]
  | .cons _ rest, i0 + 1, h => by
    simp only [armAt] at h
    simp only [deArms]
    exact deArms_eq h idx st

theorem i32ToBytes_length (v : Int) : (i32ToBytes v).length = 4 := rfl

theorem i64ToBytes_length (v : Int) : (i64ToBytes v).length = 8 := rfl

theorem ok_state_eq {α : Type} (a : α) {input : List Nat} {x y : Nat}
    (h : x = y) :
    (Except.ok (a, (⟨input, x⟩ : DSt)) : Except Error (α × DSt)) =
      .ok (a, ⟨input, y⟩) := by rw [h]

-- ── The round-trip theorem ─────────────────────────────────────────────────

mutual
/-- Every well-formed value has a wire image: the serializer emits it on
the Vec sink, and the decoder at the matching type reads it back exactly,
from any position and with any tail. -/
theorem round_val (v : Value) :
    ∀ t : Ty, wf t v = true → ∃ bs, SerIs v bs ∧ DeIs t v bs := by
  cases v with
  | vBool b =>
    intro t h
    cases t <;> simp [wf] at h
    refine ⟨u32ToBytes (if b then 1 else 0), fun acc => by
      simp [serVal, write_u32_append], ?_⟩
    intro input pos tail hp hd
    have hn : (if b then 1 else 0) < 2 ^ 32 := by cases b <;> norm_num
    simp only [de, read_u32_spec hn hp hd, ok_bind]
    cases b <;> simp [u32ToBytes_length]
  | vU8 n =>
    intro t h
    cases t <;> simp [wf] at h
    refine ⟨u32ToBytes n, fun acc => by simp [serVal, write_u32_append], ?_⟩
    intro input pos tail hp hd
    have hn : n < 2 ^ 32 := by omega
    simp only [de, read_u32_spec hn hp hd, ok_bind]
    have hm : n % 256 = n := by omega
    simp [u32ToBytes_length, hm]
  | vU16 n =>
    intro t h
    cases t <;> simp [wf] at h
    refine ⟨u32ToBytes n, fun acc => by simp [serVal, write_u32_append], ?_⟩
    intro input pos tail hp hd
    have hn : n < 2 ^ 32 := by omega
    simp only [de, read_u32_spec hn hp hd, ok_bind]
    have hm : n % 2 ^ 16 = n := by omega
    simp [u32ToBytes_length, hm, h]
  | vU32 n =>
    intro t h
    cases t <;> simp [wf] at h
    refine ⟨u32ToBytes n, fun acc => by simp [serVal, write_u32_append], ?_⟩
    intro input pos tail hp hd
    simp only [de, read_u32_spec h hp hd, ok_bind]
    simp [u32ToBytes_length]
  | vU64 n =>
    intro t h
    cases t <;> simp [wf] at h
    refine ⟨u64ToBytes n, fun acc => by simp [serVal, write_u64_append], ?_⟩
    intro input pos tail hp hd
    simp only [de, read_u64_spec h hp hd, ok_bind]
    simp [u64ToBytes_length]
  | vI8 x =>
    intro t h
    cases t <;> simp [wf] at h
    refine ⟨i32ToBytes x, fun acc => by simp [serVal, write_i32_append], ?_⟩
    intro input pos tail hp hd
    have hb1 : -(2 ^ 31) ≤ x := by omega
    have hb2 : x < 2 ^ 31 := by omega
    simp only [de, read_i32_spec hb1 hb2 hp hd, ok_bind]
    simp [i32ToBytes_length, castI8_small h.1 h.2]
  | vI16 x =>
    intro t h
    cases t <;> simp [wf] at h
    refine ⟨i32ToBytes x, fun acc => by simp [serVal, write_i32_append], ?_⟩
    intro input pos tail hp hd
    have hb1 : -(2 ^ 31) ≤ x := by omega
    have hb2 : x < 2 ^ 31 := by omega
    simp only [de, read_i32_spec hb1 hb2 hp hd, ok_bind]
    simp [i32ToBytes_length, castI16_small h.1 h.2]
  | vI32 x =>
    intro t h
    cases t <;> simp [wf] at h
    refine ⟨i32ToBytes x, fun acc => by simp [serVal, write_i32_append], ?_⟩
    intro input pos tail hp hd
    simp only [de, read_i32_spec h.1 h.2 hp hd, ok_bind]
    simp [i32ToBytes_length]
  | vI64 x =>
    intro t h
    cases t <;> simp [wf] at h
    refine ⟨i64ToBytes x, fun acc => by simp [serVal, write_i64_append], ?_⟩
    intro input pos tail hp hd
    simp only [de, read_i64_spec h.1 h.2 hp hd, ok_bind]
    simp [i64ToBytes_length]
  | vF32 bits =>
    intro t h
    cases t <;> simp [wf] at h
    refine ⟨u32ToBytes bits, fun acc => by
      simp [serVal, write_all_append], ?_⟩
    intro input pos tail hp hd
    simp only [de, take_spec (u32ToBytes_length bits) hp hd, ok_bind]
    simp [u32ToBytes_length, beToNat_u32ToBytes_small h]
  | vF64 bits =>
    intro t h
    cases t <;> simp [wf] at h
    refine ⟨u64ToBytes bits, fun acc => by
      simp [serVal, write_all_append], ?_⟩
    intro input pos tail hp hd
    simp only [de, take_spec (u64ToBytes_length bits) hp hd, ok_bind]
    simp [u64ToBytes_length, beToNat_u64ToBytes_small h]
  | vChar c =>
    intro t h
    cases t <;> simp [wf] at h
    have hc : c < 2 ^ 32 := by
      have h2 := h
      simp only [isScalar, Bool.or_eq_true, decide_eq_true_eq,
        Bool.and_eq_true] at h2
      omega
    refine ⟨u32ToBytes c, fun acc => by simp [serVal, write_u32_append], ?_⟩
    intro input pos tail hp hd
    simp only [de, read_u32_spec hc hp hd, ok_bind]
    simp [h, u32ToBytes_length]
  | vStr bs =>
    intro t h
    cases t <;> simp [wf] at h
    obtain ⟨⟨huf, hlen⟩, _⟩ := h
    refine ⟨u32ToBytes bs.length ++
      (bs ++ List.replicate (padLen bs.length) 0), fun acc => by
        simp only [serVal]
        rw [write_opaque_variable_append acc hlen], ?_⟩
    intro input pos tail hp hd
    have hd2 : input.drop pos =
        u32ToBytes bs.length ++
          (bs ++ (List.replicate (padLen bs.length) 0 ++ tail)) := by
      simpa [List.append_assoc] using hd
    simp only [de, read_variable_opaque_spec hlen
      (List.length_replicate _ _) hp hd2, ok_bind]
    rw [if_pos huf]
    exact ok_state_eq _ (by
      simp [List.length_append, u32ToBytes_length, List.length_replicate]
      omega)
  | vBytes bs =>
    intro t h
    cases t <;> simp [wf] at h
    obtain ⟨hlen, _⟩ := h
    refine ⟨u32ToBytes bs.length ++
      (bs ++ List.replicate (padLen bs.length) 0), fun acc => by
        simp only [serVal]
        rw [write_opaque_variable_append acc hlen], ?_⟩
    intro input pos tail hp hd
    have hd2 : input.drop pos =
        u32ToBytes bs.length ++
          (bs ++ (List.replicate (padLen bs.length) 0 ++ tail)) := by
      simpa [List.append_assoc] using hd
    simp only [de, read_variable_opaque_spec hlen
      (List.length_replicate _ _) hp hd2, ok_bind]
    exact ok_state_eq _ (by
      simp [List.length_append, u32ToBytes_length, List.length_replicate]
      omega)
  | vNone =>
    intro t h
    cases t <;> simp [wf] at h
    refine ⟨u32ToBytes 0, fun acc => by simp [serVal, write_u32_append], ?_⟩
    intro input pos tail hp hd
    simp only [de, read_u32_spec (by norm_num) hp hd, ok_bind]
    simp [u32ToBytes_length]
  | vSome vv =>
    intro t h
    cases t <;> simp [wf] at h
    case tOpt t1 =>
    obtain ⟨bs1, hs1, hd1⟩ := round_val vv t1 h
    refine ⟨u32ToBytes 1 ++ bs1, fun acc => by
      simp only [serVal, write_u32_append, ok_bind]
      rw [hs1, List.append_assoc], ?_⟩
    intro input pos tail hp hd
    have hd2 : input.drop pos = u32ToBytes 1 ++ (bs1 ++ tail) := by
      simpa [List.append_assoc] using hd
    have hp2 : pos + 4 ≤ input.length := by
      have := bound_shift hp hd2; simpa [u32ToBytes_length] using this
    have hdd : input.drop (pos + 4) = bs1 ++ tail := by
      have := drop_shift hd2; simpa [u32ToBytes_length] using this
    simp only [de, read_u32_spec (by norm_num) hp hd2, ok_bind,
      hd1 input (pos + 4) tail hp2 hdd]
    exact ok_state_eq _ (by simp [List.length_append, u32ToBytes_length]; omega)
  | vUnit =>
    intro t h
    cases t <;> simp [wf] at h
    refine ⟨[], fun acc => by simp [serVal]; rfl, ?_⟩
    intro input pos tail hp hd
    simp [de]
  | vNewtype vv =>
    intro t h
    cases t <;> simp [wf] at h
    case tNewtype t1 =>
    obtain ⟨bs1, hs1, hd1⟩ := round_val vv t1 h
    refine ⟨bs1, fun acc => by simp only [serVal]; exact hs1 acc, ?_⟩
    intro input pos tail hp hd
    simp only [de, hd1 input pos tail hp hd, ok_bind]
  | vFixedOpaque bs =>
    intro t h
    cases t <;> simp [wf] at h
    case tFixedOpaque n =>
    obtain ⟨hlen, _⟩ := h
    subst hlen
    refine ⟨bs ++ List.replicate (padLen bs.length) 0, fun acc => by
      simp only [serVal, write_padded_bytes_append], ?_⟩
    intro input pos tail hp hd
    have hd2 : input.drop pos =
        bs ++ (List.replicate (padLen bs.length) 0 ++ tail) := by
      simpa [List.append_assoc] using hd
    simp only [de, read_padded_bytes_spec rfl
      (List.length_replicate _ _) hp hd2, ok_bind]
    exact ok_state_eq _ (by
      simp [List.length_append, List.length_replicate]; omega)
  | vUnitVariant idx =>
    intro t h
    cases t <;> simp [wf] at h
    case tEnum arms =>
    rcases harm : armAt arms idx with _ | a
    · rw [harm] at h; simp at h
    rw [harm] at h
    cases a <;> simp at h
    refine ⟨u32ToBytes idx, fun acc => by simp [serVal, write_u32_append], ?_⟩
    intro input pos tail hp hd
    simp only [de, read_u32_spec h hp hd, ok_bind, deArms_eq harm,
      armDecode]
    simp [u32ToBytes_length]
  | vNewtypeVariant idx vv =>
    intro t h
    cases t <;> simp [wf] at h
    case tEnum arms =>
    rcases harm : armAt arms idx with _ | a
    · rw [harm] at h; simp at h
    rw [harm] at h
    cases a <;> simp at h
    case newtypeArm t1 =>
    obtain ⟨hidx, hwf⟩ := h
    obtain ⟨bs1, hs1, hd1⟩ := round_val vv t1 hwf
    refine ⟨u32ToBytes idx ++ bs1, fun acc => by
      simp only [serVal, write_u32_append, ok_bind]
      rw [hs1, List.append_assoc], ?_⟩
    intro input pos tail hp hd
    have hd2 : input.drop pos = u32ToBytes idx ++ (bs1 ++ tail) := by
      simpa [List.append_assoc] using hd
    have hp2 : pos + 4 ≤ input.length := by
      have := bound_shift hp hd2; simpa [u32ToBytes_length] using this
    have hdd : input.drop (pos + 4) = bs1 ++ tail := by
      have := drop_shift hd2; simpa [u32ToBytes_length] using this
    simp only [de, read_u32_spec hidx hp hd2, ok_bind, deArms_eq harm,
      armDecode, hd1 input (pos + 4) tail hp2 hdd]
    exact ok_state_eq _ (by simp [List.length_append, u32ToBytes_length]; omega)
  | vTupleVariant idx fs =>
    intro t h
    cases t <;> simp [wf] at h
    case tEnum arms =>
    rcases harm : armAt arms idx with _ | a
    · rw [harm] at h; simp at h
    rw [harm] at h
    cases a <;> simp at h
    case tupleArm ts =>
    obtain ⟨hidx, hwf⟩ := h
    obtain ⟨bs1, hs1, hd1⟩ := round_fields fs ts hwf
    refine ⟨u32ToBytes idx ++ bs1, fun acc => by
      simp only [serVal, write_u32_append, ok_bind]
      rw [hs1, List.append_assoc], ?_⟩
    intro input pos tail hp hd
    have hd2 : input.drop pos = u32ToBytes idx ++ (bs1 ++ tail) := by
      simpa [List.append_assoc] using hd
    have hp2 : pos + 4 ≤ input.length := by
      have := bound_shift hp hd2; simpa [u32ToBytes_length] using this
    have hdd : input.drop (pos + 4) = bs1 ++ tail := by
      have := drop_shift hd2; simpa [u32ToBytes_length] using this
    simp only [de, read_u32_spec hidx hp hd2, ok_bind, deArms_eq harm,
      armDecode, hd1 input (pos + 4) tail hp2 hdd]
    exact ok_state_eq _ (by simp [List.length_append, u32ToBytes_length]; omega)
  | vStructVariant idx fs =>
    intro t h
    cases t <;> simp [wf] at h
    case tEnum arms =>
    rcases harm : armAt arms idx with _ | a
    · rw [harm] at h; simp at h
    rw [harm] at h
    cases a <;> simp at h
    case structArm ts =>
    obtain ⟨hidx, hwf⟩ := h
    obtain ⟨bs1, hs1, hd1⟩ := round_fields fs ts hwf
    refine ⟨u32ToBytes idx ++ bs1, fun acc => by
      simp only [serVal, write_u32_append, ok_bind]
      rw [hs1, List.append_assoc], ?_⟩
    intro input pos tail hp hd
    have hd2 : input.drop pos = u32ToBytes idx ++ (bs1 ++ tail) := by
      simpa [List.append_assoc] using hd
    have hp2 : pos + 4 ≤ input.length := by
      have := bound_shift hp hd2; simpa [u32ToBytes_length] using this
    have hdd : input.drop (pos + 4) = bs1 ++ tail := by
      have := drop_shift hd2; simpa [u32ToBytes_length] using this
    simp only [de, read_u32_spec hidx hp hd2, ok_bind, deArms_eq harm,
      armDecode, hd1 input (pos + 4) tail hp2 hdd]
    exact ok_state_eq _ (by simp [List.length_append, u32ToBytes_length]; omega)
  | vTuple fs =>
    intro t h
    cases t <;> simp [wf] at h
    case tTuple ts =>
      obtain ⟨bs1, hs1, hd1⟩ := round_fields fs ts h
      refine ⟨bs1, fun acc => by simp only [serVal]; exact hs1 acc, ?_⟩
      intro input pos tail hp hd
      simp only [de, hd1 input pos tail hp hd, ok_bind]
    case tStruct ts =>
      obtain ⟨bs1, hs1, hd1⟩ := round_fields fs ts h
      refine ⟨bs1, fun acc => by simp only [serVal]; exact hs1 acc, ?_⟩
      intro input pos tail hp hd
      simp only [de, hd1 input pos tail hp hd, ok_bind]
  | vSeq es =>
    intro t h
    cases t <;> simp [wf] at h
    case tSeq t1 =>
    obtain ⟨hlen, hwf⟩ := h
    obtain ⟨bs1, hs1, hd1⟩ := round_many es t1 hwf
    refine ⟨u32ToBytes (Values.length es) ++ bs1, fun acc => by
      simp only [serVal, write_u32_append, ok_bind]
      rw [hs1, List.append_assoc], ?_⟩
    intro input pos tail hp hd
    have hd2 : input.drop pos =
        u32ToBytes (Values.length es) ++ (bs1 ++ tail) := by
      simpa [List.append_assoc] using hd
    have hp2 : pos + 4 ≤ input.length := by
      have := bound_shift hp hd2; simpa [u32ToBytes_length] using this
    have hdd : input.drop (pos + 4) = bs1 ++ tail := by
      have := drop_shift hd2; simpa [u32ToBytes_length] using this
    simp only [de, read_u32_spec hlen hp hd2, ok_bind,
      hd1 input (pos + 4) tail hp2 hdd]
    exact ok_state_eq _ (by simp [List.length_append, u32ToBytes_length]; omega)
  | vSeqNoLen es =>
    intro t h
    cases t <;> simp [wf] at h
  | vMap ps =>
    intro t h
    cases t <;> simp [wf] at h
    case tMap k1 v1 =>
    obtain ⟨hlen, hwf⟩ := h
    obtain ⟨bs1, hs1, hd1⟩ := round_pairs ps k1 v1 hwf
    refine ⟨u32ToBytes (Pairs.length ps) ++ bs1, fun acc => by
      simp only [serVal, write_u32_append, ok_bind]
      rw [hs1, List.append_assoc], ?_⟩
    intro input pos tail hp hd
    have hd2 : input.drop pos =
        u32ToBytes (Pairs.length ps) ++ (bs1 ++ tail) := by
      simpa [List.append_assoc] using hd
    have hp2 : pos + 4 ≤ input.length := by
      have := bound_shift hp hd2; simpa [u32ToBytes_length] using this
    have hdd : input.drop (pos + 4) = bs1 ++ tail := by
      have := drop_shift hd2; simpa [u32ToBytes_length] using this
    simp only [de, read_u32_spec hlen hp hd2, ok_bind,
      hd1 input (pos + 4) tail hp2 hdd]
    exact ok_state_eq _ (by simp [List.length_append, u32ToBytes_length]; omega)

/-- Fields round-trip: serVals and deFields agree on well-formed field
lists. -/
theorem round_fields (vs : Values) :
    ∀ ts : Tys, wfFields ts vs = true →
      ∃ bs, SersIs vs bs ∧ DeFieldsIs ts vs bs := by
  cases vs with
  | nil =>
    intro ts h
    cases ts with
    | cons t ts1 => simp [wfFields] at h
    | nil =>
      refine ⟨[], fun acc => by simp [serVals]; rfl, ?_⟩
      intro input pos tail hp hd
      simp [deFields]
  | cons v vs1 =>
    intro ts h
    cases ts with
    | nil => simp [wfFields] at h
    | cons t ts1 =>
      simp only [wfFields, Bool.and_eq_true] at h
      obtain ⟨bs1, hs1, hd1⟩ := round_val v t h.1
      obtain ⟨bs2, hs2, hd2⟩ := round_fields vs1 ts1 h.2
      refine ⟨bs1 ++ bs2, fun acc => by
        simp only [serVals]
        rw [hs1, ok_bind, hs2, List.append_assoc], ?_⟩
      intro input pos tail hp hd
      have hd2a : input.drop pos = bs1 ++ (bs2 ++ tail) := by
        simpa [List.append_assoc] using hd
      have hp2 : pos + bs1.length ≤ input.length := bound_shift hp hd2a
      have hdd : input.drop (pos + bs1.length) = bs2 ++ tail :=
        drop_shift hd2a
      simp only [deFields, hd1 input pos _ hp hd2a, ok_bind,
        hd2 input (pos + bs1.length) tail hp2 hdd]
      exact ok_state_eq _ (by simp [List.length_append]; omega)

/-- Uniform elements round-trip: serVals and deMany agree at the count. -/
theorem round_many (vs : Values) :
    ∀ t : Ty, wfMany t vs = true → ∃ bs, SersIs vs bs ∧ DeManyIs t vs bs := by
  cases vs with
  | nil =>
    intro t h
    refine ⟨[], fun acc => by simp [serVals]; rfl, ?_⟩
    intro input pos tail hp hd
    simp [DeManyIs, Values.length, deMany]
  | cons v vs1 =>
    intro t h
    simp only [wfMany, Bool.and_eq_true] at h
    obtain ⟨bs1, hs1, hd1⟩ := round_val v t h.1
    obtain ⟨bs2, hs2, hd2⟩ := round_many vs1 t h.2
    refine ⟨bs1 ++ bs2, fun acc => by
      simp only [serVals]
      rw [hs1, ok_bind, hs2, List.append_assoc], ?_⟩
    intro input pos tail hp hd
    have hd2a : input.drop pos = bs1 ++ (bs2 ++ tail) := by
      simpa [List.append_assoc] using hd
    have hp2 : pos + bs1.length ≤ input.length := bound_shift hp hd2a
    have hdd : input.drop (pos + bs1.length) = bs2 ++ tail :=
      drop_shift hd2a
    simp only [Values.length, deMany, hd1 input pos _ hp hd2a, ok_bind,
      hd2 input (pos + bs1.length) tail hp2 hdd]
    exact ok_state_eq _ (by simp [List.length_append]; omega)

/-- Map entries round-trip: serPairs and dePairs agree at the count. -/
theorem round_pairs (ps : Pairs) :
    ∀ k v : Ty, wfPairs k v ps = true →
      ∃ bs, SerPairsIs ps bs ∧ DePairsIs k v ps bs := by
  cases ps with
  | nil =>
    intro k v h
    refine ⟨[], fun acc => by simp [serPairs]; rfl, ?_⟩
    intro input pos tail hp hd
    simp [DePairsIs, Pairs.length, dePairs]
  | cons kv vv ps1 =>
    intro k v h
    simp only [wfPairs, Bool.and_eq_true] at h
    obtain ⟨⟨hk, hv⟩, hps⟩ := h
    obtain ⟨bs1, hs1, hd1⟩ := round_val kv k hk
    obtain ⟨bs2, hs2, hd2⟩ := round_val vv v hv
    obtain ⟨bs3, hs3, hd3⟩ := round_pairs ps1 k v hps
    refine ⟨bs1 ++ (bs2 ++ bs3), fun acc => by
      simp only [serPairs]
      rw [hs1, ok_bind, hs2, ok_bind, hs3, List.append_assoc,
        List.append_assoc], ?_⟩
    intro input pos tail hp hd
    have hda : input.drop pos = bs1 ++ (bs2 ++ (bs3 ++ tail)) := by
      simpa [List.append_assoc] using hd
    have hp2 : pos + bs1.length ≤ input.length := bound_shift hp hda
    have hdb : input.drop (pos + bs1.length) = bs2 ++ (bs3 ++ tail) :=
      drop_shift hda
    have hp3 : pos + bs1.length + bs2.length ≤ input.length :=
      bound_shift hp2 hdb
    have hdc : input.drop (pos + bs1.length + bs2.length) = bs3 ++ tail :=
      drop_shift hdb
    simp only [Pairs.length, dePairs, hd1 input pos _ hp hda, ok_bind,
      hd2 input (pos + bs1.length) _ hp2 hdb,
      hd3 input (pos + bs1.length + bs2.length) tail hp3 hdc]
    exact ok_state_eq _ (by simp [List.length_append]; omega)
end

-- ── Alignment of the emitted stream ────────────────────────────────────────

mutual
/-- Whatever the serializer emits on the Vec sink after a prefix is a
suffix whose length is a multiple of 4. -/
theorem serVal_len (v : Value) :
    ∀ acc out, serVal appendW acc v = .ok out →
      ∃ bs, out = acc ++ bs ∧ bs.length % 4 = 0 := by
  cases v with
  | vBool b =>
    intro acc out h
    simp only [serVal, write_u32_append, Except.ok.injEq] at h
    exact ⟨_, h.symm, by
      norm_num [u32ToBytes_length, u64ToBytes_length, i32ToBytes_length,
        i64ToBytes_length]⟩
  | vU8 n =>
    intro acc out h
    simp only [serVal, write_u32_append, Except.ok.injEq] at h
    exact ⟨_, h.symm, by
      norm_num [u32ToBytes_length, u64ToBytes_length, i32ToBytes_length,
        i64ToBytes_length]⟩
  | vU16 n =>
    intro acc out h
    simp only [serVal, write_u32_append, Except.ok.injEq] at h
    exact ⟨_, h.symm, by
      norm_num [u32ToBytes_length, u64ToBytes_length, i32ToBytes_length,
        i64ToBytes_length]⟩
  | vU32 n =>
    intro acc out h
    simp only [serVal, write_u32_append, Except.ok.injEq] at h
    exact ⟨_, h.symm, by
      norm_num [u32ToBytes_length, u64ToBytes_length, i32ToBytes_length,
        i64ToBytes_length]⟩
  | vU64 n =>
    intro acc out h
    simp only [serVal, write_u64_append, Except.ok.injEq] at h
    exact ⟨_, h.symm, by
      norm_num [u32ToBytes_length, u64ToBytes_length, i32ToBytes_length,
        i64ToBytes_length]⟩
  | vI8 x =>
    intro acc out h
    simp only [serVal, write_i32_append, Except.ok.injEq] at h
    exact ⟨_, h.symm, by
      norm_num [u32ToBytes_length, u64ToBytes_length, i32ToBytes_length,
        i64ToBytes_length]⟩
  | vI16 x =>
    intro acc out h
    simp only [serVal, write_i32_append, Except.ok.injEq] at h
    exact ⟨_, h.symm, by
      norm_num [u32ToBytes_length, u64ToBytes_length, i32ToBytes_length,
        i64ToBytes_length]⟩
  | vI32 x =>
    intro acc out h
    simp only [serVal, write_i32_append, Except.ok.injEq] at h
    exact ⟨_, h.symm, by
      norm_num [u32ToBytes_length, u64ToBytes_length, i32ToBytes_length,
        i64ToBytes_length]⟩
  | vI64 x =>
    intro acc out h
    simp only [serVal, write_i64_append, Except.ok.injEq] at h
    exact ⟨_, h.symm, by
      norm_num [u32ToBytes_length, u64ToBytes_length, i32ToBytes_length,
        i64ToBytes_length]⟩
  | vF32 bits =>
    intro acc out h
    simp only [serVal, write_all_append, Except.ok.injEq] at h
    exact ⟨_, h.symm, by
      norm_num [u32ToBytes_length, u64ToBytes_length, i32ToBytes_length,
        i64ToBytes_length]⟩
  | vF64 bits =>
    intro acc out h
    simp only [serVal, write_all_append, Except.ok.injEq] at h
    exact ⟨_, h.symm, by
      norm_num [u32ToBytes_length, u64ToBytes_length, i32ToBytes_length,
        i64ToBytes_length]⟩
  | vChar c =>
    intro acc out h
    simp only [serVal, write_u32_append, Except.ok.injEq] at h
    exact ⟨_, h.symm, by
      norm_num [u32ToBytes_length, u64ToBytes_length, i32ToBytes_length,
        i64ToBytes_length]⟩
  | vStr bs =>
    intro acc out h
    by_cases hlen : bs.length > 2 ^ 32 - 1
    · rw [serVal, write_opaque_variable, if_pos (by omega)] at h
      simp at h
    · rw [serVal, write_opaque_variable_append acc (by omega)] at h
      injection h with h
      refine ⟨_, h.symm, ?_⟩
      simp only [List.length_append, u32ToBytes_length,
        List.length_replicate, padLen]
      omega
  | vBytes bs =>
    intro acc out h
    by_cases hlen : bs.length > 2 ^ 32 - 1
    · rw [serVal, write_opaque_variable, if_pos (by omega)] at h
      simp at h
    · rw [serVal, write_opaque_variable_append acc (by omega)] at h
      injection h with h
      refine ⟨_, h.symm, ?_⟩
      simp only [List.length_append, u32ToBytes_length,
        List.length_replicate, padLen]
      omega
  | vNone =>
    intro acc out h
    simp only [serVal, write_u32_append, Except.ok.injEq] at h
    exact ⟨_, h.symm, by
      norm_num [u32ToBytes_length, u64ToBytes_length, i32ToBytes_length,
        i64ToBytes_length]⟩
  | vSome vv =>
    intro acc out h
    simp only [serVal, write_u32_append, ok_bind] at h
    obtain ⟨bs, hout, hm⟩ := serVal_len vv _ _ h
    refine ⟨u32ToBytes 1 ++ bs, by simp [hout, List.append_assoc], ?_⟩
    simp only [List.length_append, u32ToBytes_length]
    omega
  | vUnit =>
    intro acc out h
    simp only [serVal] at h
    injection h with h
    exact ⟨[], by simp [h], by norm_num⟩
  | vNewtype vv =>
    intro acc out h
    simp only [serVal] at h
    exact serVal_len vv _ _ h
  | vFixedOpaque bs =>
    intro acc out h
    rw [serVal, write_padded_bytes_append] at h
    injection h with h
    refine ⟨_, h.symm, ?_⟩
    simp only [List.length_append, List.length_replicate, padLen]
    omega
  | vUnitVariant idx =>
    intro acc out h
    simp only [serVal, write_u32_append, Except.ok.injEq] at h
    exact ⟨_, h.symm, by
      norm_num [u32ToBytes_length, u64ToBytes_length, i32ToBytes_length,
        i64ToBytes_length]⟩
  | vNewtypeVariant idx vv =>
    intro acc out h
    simp only [serVal, write_u32_append, ok_bind] at h
    obtain ⟨bs, hout, hm⟩ := serVal_len vv _ _ h
    refine ⟨u32ToBytes idx ++ bs, by simp [hout, List.append_assoc], ?_⟩
    simp only [List.length_append, u32ToBytes_length]
    omega
  | vTupleVariant idx fs =>
    intro acc out h
    simp only [serVal, write_u32_append, ok_bind] at h
    obtain ⟨bs, hout, hm⟩ := serVals_len fs _ _ h
    refine ⟨u32ToBytes idx ++ bs, by simp [hout, List.append_assoc], ?_⟩
    simp only [List.length_append, u32ToBytes_length]
    omega
  | vStructVariant idx fs =>
    intro acc out h
    simp only [serVal, write_u32_append, ok_bind] at h
    obtain ⟨bs, hout, hm⟩ := serVals_len fs _ _ h
    refine ⟨u32ToBytes idx ++ bs, by simp [hout, List.append_assoc], ?_⟩
    simp only [List.length_append, u32ToBytes_length]
    omega
  | vTuple fs =>
    intro acc out h
    simp only [serVal] at h
    exact serVals_len fs _ _ h
  | vSeq es =>
    intro acc out h
    simp only [serVal, write_u32_append, ok_bind] at h
    obtain ⟨bs, hout, hm⟩ := serVals_len es _ _ h
    refine ⟨u32ToBytes (Values.length es) ++ bs,
      by simp [hout, List.append_assoc], ?_⟩
    simp only [List.length_append, u32ToBytes_length]
    omega
  | vSeqNoLen es =>
    intro acc out h
    rw [serVal] at h
    simp at h
  | vMap ps =>
    intro acc out h
    simp only [serVal, write_u32_append, ok_bind] at h
    obtain ⟨bs, hout, hm⟩ := serPairs_len ps _ _ h
    refine ⟨u32ToBytes (Pairs.length ps) ++ bs,
      by simp [hout, List.append_assoc], ?_⟩
    simp only [List.length_append, u32ToBytes_length]
    omega

/-- serVals analogue of serVal_len. -/
theorem serVals_len (vs : Values) :
    ∀ acc out, serVals appendW acc vs = .ok out →
      ∃ bs, out = acc ++ bs ∧ bs.length % 4 = 0 := by
  cases vs with
  | nil =>
    intro acc out h
    simp only [serVals] at h
    injection h with h
    exact ⟨[], by simp [h], by norm_num⟩
  | cons v vs1 =>
    intro acc out h
    simp only [serVals] at h
    cases hx : serVal appendW acc v with
    | error e => rw [hx, error_bind] at h; exact absurd h (by simp)
    | ok s1 =>
      rw [hx, ok_bind] at h
      obtain ⟨bs1, hs1, hm1⟩ := serVal_len v _ _ hx
      obtain ⟨bs2, hs2, hm2⟩ := serVals_len vs1 _ _ h
      refine ⟨bs1 ++ bs2, by simp [hs2, hs1, List.append_assoc], ?_⟩
      simp only [List.length_append]
      omega

/-- serPairs analogue of serVal_len. -/
theorem serPairs_len (ps : Pairs) :
    ∀ acc out, serPairs appendW acc ps = .ok out →
      ∃ bs, out = acc ++ bs ∧ bs.length % 4 = 0 := by
  cases ps with
  | nil =>
    intro acc out h
    simp only [serPairs] at h
    injection h with h
    exact ⟨[], by simp [h], by norm_num⟩
  | cons kv vv ps1 =>
    intro acc out h
    simp only [serPairs] at h
    cases hx : serVal appendW acc kv with
    | error e => rw [hx, error_bind] at h; exact absurd h (by simp)
    | ok s1 =>
      rw [hx, ok_bind] at h
      cases hy : serVal appendW s1 vv with
      | error e => rw [hy, error_bind] at h; exact absurd h (by simp)
      | ok s2 =>
        rw [hy, ok_bind] at h
        obtain ⟨bs1, hs1, hm1⟩ := serVal_len kv _ _ hx
        obtain ⟨bs2, hs2, hm2⟩ := serVal_len vv _ _ hy
        obtain ⟨bs3, hs3, hm3⟩ := serPairs_len ps1 _ _ h
        refine ⟨bs1 ++ (bs2 ++ bs3),
          by simp [hs3, hs2, hs1, List.append_assoc], ?_⟩
        simp only [List.length_append]
        omega
end

-- ── Simulation between an arbitrary non-failing sink and the Vec sink ──────

/-- A sink that never fails, together with an abstraction f giving the
bytes it has absorbed: every write succeeds and appends the chunk to the
absorbed stream. -/
def NonFailing {σ : Type} (w : Writer σ) (f : σ → List Nat) : Prop :=
  ∀ s c, ∃ s1, w s c = .ok s1 ∧ f s1 = f s ++ c

/-- The sink-side computation x simulates the Vec-side computation y: they
fail with the same error, and on success the sink has absorbed exactly the
Vec contents. -/
def SimOut {σ : Type} (f : σ → List Nat) (x : Except Error σ)
    (y : Except Error (List Nat)) : Prop :=
  (∀ out, y = .ok out → ∃ s1, x = .ok s1 ∧ f s1 = out) ∧
    (∀ e, y = .error e → x = .error e)

theorem SimOut_pure {σ : Type} {f : σ → List Nat} (s : σ) :
    SimOut f (pure s) (pure (f s)) := by
  constructor
  · intro out h
    injection h with h
    exact ⟨s, rfl, h⟩
  · intro e h
    exact absurd h (by simp [pure, Except.pure])

theorem SimOut_error {σ : Type} {f : σ → List Nat} (e0 : Error) :
    SimOut f (.error e0) (.error e0) := by
  constructor
  · intro out h
    exact absurd h (by simp)
  · intro e h
    injection h with h
    rw [h]

theorem SimOut_bind {σ : Type} {f : σ → List Nat} {x : Except Error σ}
    {y : Except Error (List Nat)} {k : σ → Except Error σ}
    {l : List Nat → Except Error (List Nat)}
    (hxy : SimOut f x y)
    (hkl : ∀ s1 out, f s1 = out → SimOut f (k s1) (l out)) :
    SimOut f (x >>= k) (y >>= l) := by
  constructor
  · intro out h
    cases hy : y with
    | error e => rw [hy, error_bind] at h; exact absurd h (by simp)
    | ok o1 =>
      rw [hy, ok_bind] at h
      obtain ⟨s1, hx1, hf1⟩ := hxy.1 o1 hy
      obtain ⟨s2, hk1, hf2⟩ := (hkl s1 o1 hf1).1 out h
      exact ⟨s2, by rw [hx1, ok_bind]; exact hk1, hf2⟩
  · intro e h
    cases hy : y with
    | error e1 =>
      rw [hy, error_bind] at h
      injection h with h
      subst h
      rw [hxy.2 e1 hy, error_bind]
    | ok o1 =>
      rw [hy, ok_bind] at h
      obtain ⟨s1, hx1, hf1⟩ := hxy.1 o1 hy
      rw [hx1, ok_bind]
      exact (hkl s1 o1 hf1).2 e h

theorem NF_write_all {σ : Type} {w : Writer σ} {f : σ → List Nat}
    (hw : NonFailing w f) (s : σ) (c : List Nat) :
    ∃ s1, write_all w s c = .ok s1 ∧ f s1 = f s ++ c := by
  obtain ⟨s1, h1, h2⟩ := hw s c
  exact ⟨s1, by simp [write_all, h1], h2⟩

theorem simout_write_all {σ : Type} {w : Writer σ} {f : σ → List Nat}
    (hw : NonFailing w f) (s : σ) (c : List Nat) :
    SimOut f (write_all w s c) (write_all appendW (f s) c) := by
  obtain ⟨s1, h1, h2⟩ := NF_write_all hw s c
  constructor
  · intro out h
    rw [write_all_append] at h
    injection h with h
    exact ⟨s1, h1, by rw [h2, h]⟩
  · intro e h
    rw [write_all_append] at h
    exact absurd h (by simp)

theorem simout_write_u32 {σ : Type} {w : Writer σ} {f : σ → List Nat}
    (hw : NonFailing w f) (s : σ) (n : Nat) :
    SimOut f (write_u32 w s n) (write_u32 appendW (f s) n) :=
  simout_write_all hw s (u32ToBytes n)

theorem simout_write_u64 {σ : Type} {w : Writer σ} {f : σ → List Nat}
    (hw : NonFailing w f) (s : σ) (n : Nat) :
    SimOut f (write_u64 w s n) (write_u64 appendW (f s) n) :=
  simout_write_all hw s (u64ToBytes n)

theorem simout_write_i32 {σ : Type} {w : Writer σ} {f : σ → List Nat}
    (hw : NonFailing w f) (s : σ) (v : Int) :
    SimOut f (write_i32 w s v) (write_i32 appendW (f s) v) :=
  simout_write_all hw s (i32ToBytes v)

theorem simout_write_i64 {σ : Type} {w : Writer σ} {f : σ → List Nat}
    (hw : NonFailing w f) (s : σ) (v : Int) :
    SimOut f (write_i64 w s v) (write_i64 appendW (f s) v) :=
  simout_write_all hw s (i64ToBytes v)

theorem simout_write_padded {σ : Type} {w : Writer σ} {f : σ → List Nat}
    (hw : NonFailing w f) (s : σ) (data : List Nat) :
    SimOut f (write_padded_bytes w s data)
      (write_padded_bytes appendW (f s) data) := by
  simp only [write_padded_bytes]
  refine SimOut_bind (simout_write_all hw s data) ?_
  intro s1 out hf
  by_cases h4 : data.length % 4 = 0
  · rw [if_neg (by omega), if_neg (by omega)]
    exact hf ▸ SimOut_pure s1
  · rw [if_pos (by omega), if_pos (by omega)]
    exact hf ▸ simout_write_all hw s1 _

theorem simout_write_opaque {σ : Type} {w : Writer σ} {f : σ → List Nat}
    (hw : NonFailing w f) (s : σ) (data : List Nat) :
    SimOut f (write_opaque_variable w s data)
      (write_opaque_variable appendW (f s) data) := by
  simp only [write_opaque_variable]
  by_cases hlen : data.length > 2 ^ 32 - 1
  · rw [if_pos (by omega), if_pos (by omega)]
    exact SimOut_error _
  · rw [if_neg (by omega), if_neg (by omega)]
    refine SimOut_bind (simout_write_u32 hw s data.length) ?_
    intro s1 out hf
    exact hf ▸ simout_write_padded hw s1 data

mutual
/-- The serializer on an arbitrary non-failing sink emits exactly the Vec
bytes, and the two runs fail together with the same error. -/
theorem sim_val (v : Value) :
    ∀ {σ : Type} (w : Writer σ) (f : σ → List Nat), NonFailing w f →
      ∀ s, SimOut f (serVal w s v) (serVal appendW (f s) v) := by
  cases v with
  | vBool b => intro σ w f hw s; exact simout_write_u32 hw s _
  | vU8 n => intro σ w f hw s; exact simout_write_u32 hw s n
  | vU16 n => intro σ w f hw s; exact simout_write_u32 hw s n
  | vU32 n => intro σ w f hw s; exact simout_write_u32 hw s n
  | vU64 n => intro σ w f hw s; exact simout_write_u64 hw s n
  | vI8 x => intro σ w f hw s; exact simout_write_i32 hw s x
  | vI16 x => intro σ w f hw s; exact simout_write_i32 hw s x
  | vI32 x => intro σ w f hw s; exact simout_write_i32 hw s x
  | vI64 x => intro σ w f hw s; exact simout_write_i64 hw s x
  | vF32 bits => intro σ w f hw s; exact simout_write_all hw s _
  | vF64 bits => intro σ w f hw s; exact simout_write_all hw s _
  | vChar c => intro σ w f hw s; exact simout_write_u32 hw s c
  | vStr bs => intro σ w f hw s; exact simout_write_opaque hw s bs
  | vBytes bs => intro σ w f hw s; exact simout_write_opaque hw s bs
  | vNone => intro σ w f hw s; exact simout_write_u32 hw s 0
  | vSome vv =>
    intro σ w f hw s
    simp only [serVal]
    refine SimOut_bind (simout_write_u32 hw s 1) ?_
    intro s1 out hf
    exact hf ▸ sim_val vv w f hw s1
  | vUnit => intro σ w f hw s; simp only [serVal]; exact SimOut_pure s
  | vNewtype vv =>
    intro σ w f hw s
    simp only [serVal]
    exact sim_val vv w f hw s
  | vFixedOpaque bs => intro σ w f hw s; exact simout_write_padded hw s bs
  | vUnitVariant idx => intro σ w f hw s; exact simout_write_u32 hw s idx
  | vNewtypeVariant idx vv =>
    intro σ w f hw s
    simp only [serVal]
    refine SimOut_bind (simout_write_u32 hw s idx) ?_
    intro s1 out hf
    exact hf ▸ sim_val vv w f hw s1
  | vTupleVariant idx fs =>
    intro σ w f hw s
    simp only [serVal]
    refine SimOut_bind (simout_write_u32 hw s idx) ?_
    intro s1 out hf
    exact hf ▸ sim_vals fs w f hw s1
  | vStructVariant idx fs =>
    intro σ w f hw s
    simp only [serVal]
    refine SimOut_bind (simout_write_u32 hw s idx) ?_
    intro s1 out hf
    exact hf ▸ sim_vals fs w f hw s1
  | vTuple fs =>
    intro σ w f hw s
    simp only [serVal]
    exact sim_vals fs w f hw s
  | vSeq es =>
    intro σ w f hw s
    simp only [serVal]
    refine SimOut_bind (simout_write_u32 hw s (Values.length es)) ?_
    intro s1 out hf
    exact hf ▸ sim_vals es w f hw s1
  | vSeqNoLen es =>
    intro σ w f hw s
    simp only [serVal]
    exact SimOut_error _
  | vMap ps =>
    intro σ w f hw s
    simp only [serVal]
    refine SimOut_bind (simout_write_u32 hw s (Pairs.length ps)) ?_
    intro s1 out hf
    exact hf ▸ sim_pairs ps w f hw s1

/-- serVals analogue of sim_val. -/
theorem sim_vals (vs : Values) :
    ∀ {σ : Type} (w : Writer σ) (f : σ → List Nat), NonFailing w f →
      ∀ s, SimOut f (serVals w s vs) (serVals appendW (f s) vs) := by
  cases vs with
  | nil => intro σ w f hw s; simp only [serVals]; exact SimOut_pure s
  | cons v vs1 =>
    intro σ w f hw s
    simp only [serVals]
    refine SimOut_bind (sim_val v w f hw s) ?_
    intro s1 out hf
    exact hf ▸ sim_vals vs1 w f hw s1

/-- serPairs analogue of sim_val. -/
theorem sim_pairs (ps : Pairs) :
    ∀ {σ : Type} (w : Writer σ) (f : σ → List Nat), NonFailing w f →
      ∀ s, SimOut f (serPairs w s ps) (serPairs appendW (f s) ps) := by
  cases ps with
  | nil => intro σ w f hw s; simp only [serPairs]; exact SimOut_pure s
  | cons kv vv ps1 =>
    intro σ w f hw s
    simp only [serPairs]
    refine SimOut_bind (sim_val kv w f hw s) ?_
    intro s1 out hf
    refine SimOut_bind (hf ▸ sim_val vv w f hw s1) ?_
    intro s2 out2 hf2
    exact hf2 ▸ sim_pairs ps1 w f hw s2
end

-- ── Decoder error discipline: InvalidPadding is never raised ───────────────

/-- Every error the computation can return differs from InvalidPadding. -/
def NoPadErr {α : Type} (x : Except Error α) : Prop :=
  ∀ e, x = .error e → e ≠ .InvalidPadding

theorem noPadErr_ok {α : Type} (a : α) : NoPadErr (Except.ok a) := by
  intro e h
  exact absurd h (by simp)

theorem noPadErr_error {α : Type} {e0 : Error} (h : e0 ≠ .InvalidPadding) :
    NoPadErr (Except.error e0 : Except Error α) := by
  intro e he
  injection he with he
  exact he ▸ h

theorem noPadErr_bind {α β : Type} {x : Except Error α}
    {k : α → Except Error β} (hx : NoPadErr x)
    (hk : ∀ a, NoPadErr (k a)) : NoPadErr (x >>= k) := by
  intro e h
  cases hx1 : x with
  | error e1 =>
    rw [hx1, error_bind] at h
    injection h with h
    subst h
    exact hx e1 hx1
  | ok a =>
    rw [hx1, ok_bind] at h
    exact hk a e h

theorem take_noPad (n : Nat) (st : DSt) : NoPadErr (take n st) := by
  simp only [take, takeMut]
  by_cases hc : st.pos + n > st.input.length
  · rw [if_pos hc]
    exact noPadErr_error (by simp)
  · rw [if_neg hc]
    exact noPadErr_ok _

theorem read_u32_noPad (st : DSt) : NoPadErr (read_u32 st) := by
  simp only [read_u32]
  exact noPadErr_bind (take_noPad 4 st) (fun a => noPadErr_ok _)

theorem read_i32_noPad (st : DSt) : NoPadErr (read_i32 st) := by
  simp only [read_i32]
  exact noPadErr_bind (take_noPad 4 st) (fun a => noPadErr_ok _)

theorem read_u64_noPad (st : DSt) : NoPadErr (read_u64 st) := by
  simp only [read_u64]
  exact noPadErr_bind (take_noPad 8 st) (fun a => noPadErr_ok _)

theorem read_i64_noPad (st : DSt) : NoPadErr (read_i64 st) := by
  simp only [read_i64]
  exact noPadErr_bind (take_noPad 8 st) (fun a => noPadErr_ok _)

theorem read_padded_bytes_noPad (n : Nat) (st : DSt) :
    NoPadErr (read_padded_bytes n st) := by
  simp only [read_padded_bytes]
  refine noPadErr_bind (take_noPad n st) ?_
  rintro ⟨data, st1⟩
  split
  · exact noPadErr_bind (take_noPad _ st1) (fun a => noPadErr_ok _)
  · exact noPadErr_ok _

theorem read_variable_opaque_noPad (st : DSt) :
    NoPadErr ( read_variable_opaque st) := by
  simp only [ read_variable_opaque]
  refine noPadErr_bind (read_u32_noPad st) ?_
  rintro ⟨n, st1⟩
  exact read_padded_bytes_noPad n st1

mutual
/-- No decode path of the slice deserializer ever raises InvalidPadding. -/
theorem de_noPad (t : Ty) (st : DSt) : NoPadErr (de t st) := by
  cases t with
  | tBool =>
    simp only [de]
    refine noPadErr_bind (read_u32_noPad st) ?_
    rintro ⟨w, st1⟩
    match w with
    | 0 => exact noPadErr_ok _
    | 1 => exact noPadErr_ok _
    | v + 2 => exact noPadErr_error (by simp)
  | tU8 =>
    simp only [de]
    exact noPadErr_bind (read_u32_noPad st) (fun a => noPadErr_ok _)
  | tU16 =>
    simp only [de]
    exact noPadErr_bind (read_u32_noPad st) (fun a => noPadErr_ok _)
  | tU32 =>
    simp only [de]
    exact noPadErr_bind (read_u32_noPad st) (fun a => noPadErr_ok _)
  | tU64 =>
    simp only [de]
    exact noPadErr_bind (read_u64_noPad st) (fun a => noPadErr_ok _)
  | tI8 =>
    simp only [de]
    exact noPadErr_bind (read_i32_noPad st) (fun a => noPadErr_ok _)
  | tI16 =>
    simp only [de]
    exact noPadErr_bind (read_i32_noPad st) (fun a => noPadErr_ok _)
  | tI32 =>
    simp only [de]
    exact noPadErr_bind (read_i32_noPad st) (fun a => noPadErr_ok _)
  | tI64 =>
    simp only [de]
    exact noPadErr_bind (read_i64_noPad st) (fun a => noPadErr_ok _)
  | tF32 =>
    simp only [de]
    exact noPadErr_bind (take_noPad 4 st) (fun a => noPadErr_ok _)
  | tF64 =>
    simp only [de]
    exact noPadErr_bind (take_noPad 8 st) (fun a => noPadErr_ok _)
  | tChar =>
    simp only [de]
    refine noPadErr_bind (read_u32_noPad st) ?_
    rintro ⟨w, st1⟩
    split
    · exact noPadErr_ok _
    · exact noPadErr_error (by simp)
  | tString =>
    simp only [de]
    refine noPadErr_bind (read_variable_opaque_noPad st) ?_
    rintro ⟨bs, st1⟩
    split
    · exact noPadErr_ok _
    · exact noPadErr_error (by simp)
  | tBytes =>
    simp only [de]
    exact noPadErr_bind (read_variable_opaque_noPad st) (fun a => noPadErr_ok _)
  | tUnit =>
    simp only [de]
    exact noPadErr_ok _
  | tOpt t1 =>
    simp only [de]
    refine noPadErr_bind (read_u32_noPad st) ?_
    rintro ⟨w, st1⟩
    match w with
    | 0 => exact noPadErr_ok _
    | 1 => exact noPadErr_bind (de_noPad t1 st1) (fun a => noPadErr_ok _)
    | v + 2 => exact noPadErr_error (by simp)
  | tNewtype t1 =>
    simp only [de]
    exact noPadErr_bind (de_noPad t1 st) (fun a => noPadErr_ok _)
  | tFixedOpaque n =>
    simp only [de]
    exact noPadErr_bind (read_padded_bytes_noPad n st) (fun a => noPadErr_ok _)
  | tSeq t1 =>
    simp only [de]
    refine noPadErr_bind (read_u32_noPad st) ?_
    rintro ⟨c, st1⟩
    exact noPadErr_bind (deMany_noPad t1 c st1) (fun a => noPadErr_ok _)
  | tMap k1 v1 =>
    simp only [de]
    refine noPadErr_bind (read_u32_noPad st) ?_
    rintro ⟨c, st1⟩
    exact noPadErr_bind (dePairs_noPad k1 v1 c st1) (fun a => noPadErr_ok _)
  | tTuple ts =>
    simp only [de]
    exact noPadErr_bind (deFields_noPad ts st) (fun a => noPadErr_ok _)
  | tStruct ts =>
    simp only [de]
    exact noPadErr_bind (deFields_noPad ts st) (fun a => noPadErr_ok _)
  | tEnum arms =>
    simp only [de]
    refine noPadErr_bind (read_u32_noPad st) ?_
    rintro ⟨idx, st1⟩
    exact deArms_noPad arms idx idx st1
termination_by (2 * sizeOf t, 0)

/-- deFields analogue of de_noPad. -/
theorem deFields_noPad (ts : Tys) (st : DSt) : NoPadErr (deFields ts st) := by
  cases ts with
  | nil =>
    simp only [deFields]
    exact noPadErr_ok _
  | cons t ts1 =>
    simp only [deFields]
    refine noPadErr_bind (de_noPad t st) ?_
    rintro ⟨v, st1⟩
    exact noPadErr_bind (deFields_noPad ts1 st1) (fun a => noPadErr_ok _)
termination_by (2 * sizeOf ts, 0)

/-- deMany analogue of de_noPad. -/
theorem deMany_noPad (t : Ty) (n : Nat) (st : DSt) :
    NoPadErr (deMany t n st) := by
  cases n with
  | zero =>
    simp only [deMany]
    exact noPadErr_ok _
  | succ n1 =>
    simp only [deMany]
    refine noPadErr_bind (de_noPad t st) ?_
    rintro ⟨v, st1⟩
    exact noPadErr_bind (deMany_noPad t n1 st1) (fun a => noPadErr_ok _)
termination_by (2 * sizeOf t + 1, n)

/-- dePairs analogue of de_noPad. -/
theorem dePairs_noPad (k v : Ty) (n : Nat) (st : DSt) :
    NoPadErr (dePairs k v n st) := by
  cases n with
  | zero =>
    simp only [dePairs]
    exact noPadErr_ok _
  | succ n1 =>
    simp only [dePairs]
    refine noPadErr_bind (de_noPad k st) ?_
    rintro ⟨kv, st1⟩
    refine noPadErr_bind (de_noPad v st1) ?_
    rintro ⟨vv, st2⟩
    exact noPadErr_bind (dePairs_noPad k v n1 st2) (fun a => noPadErr_ok _)
termination_by (2 * (sizeOf k + sizeOf v) + 1, n)

/-- deArms analogue of de_noPad. -/
theorem deArms_noPad (arms : Arms) (i idx : Nat) (st : DSt) :
    NoPadErr (deArms arms i idx st) := by
  cases arms with
  | nil =>
    simp only [deArms]
    exact noPadErr_error (by simp)
  | cons a rest =>
    cases i with
    | zero =>
      cases a with
      | unitArm => simp only [deArms]; exact noPadErr_ok _
      | newtypeArm t1 =>
        simp only [deArms]
        exact noPadErr_bind (de_noPad t1 st) (fun a => noPadErr_ok _)
      | tupleArm ts =>
        simp only [deArms]
        exact noPadErr_bind (deFields_noPad ts st) (fun a => noPadErr_ok _)
      | structArm ts =>
        simp only [deArms]
        exact noPadErr_bind (deFields_noPad ts st) (fun a => noPadErr_ok _)
    | succ i1 =>
      simp only [deArms]
      exact deArms_noPad rest i1 idx st
termination_by (2 * sizeOf arms, 0)
end

-- ── Decoder cursor discipline: the input is fixed, pos never moves back ────

/-- On success the computation leaves the input untouched and the cursor
at or beyond its starting point. -/
def MonoOk {α : Type} (st : DSt) (x : Except Error (α × DSt)) : Prop :=
  ∀ a st1, x = .ok (a, st1) → st1.input = st.input ∧ st.pos ≤ st1.pos

theorem monoOk_here {α : Type} (st : DSt) (a : α) :
    MonoOk st (.ok (a, st)) := by
  intro b st1 h
  injection h with h
  injection h with h1 h2
  subst h2
  exact ⟨rfl, le_refl _⟩

theorem monoOk_error {α : Type} (st : DSt) (e : Error) :
    MonoOk st (.error e : Except Error (α × DSt)) := by
  intro b st1 h
  exact absurd h (by simp)

theorem monoOk_bind {α β : Type} {st : DSt} {x : Except Error (α × DSt)}
    {k : α × DSt → Except Error (β × DSt)}
    (hx : MonoOk st x)
    (hk : ∀ a st1, x = .ok (a, st1) → MonoOk st1 (k (a, st1))) :
    MonoOk st (x >>= k) := by
  intro b st2 h
  cases hx1 : x with
  | error e =>
    rw [hx1, error_bind] at h
    exact absurd h (by simp)
  | ok p =>
    obtain ⟨a, st1⟩ := p
    rw [hx1, ok_bind] at h
    have h1 := hx a st1 hx1
    have h2 := hk a st1 hx1 b st2 h
    exact ⟨h2.1.trans h1.1, le_trans h1.2 h2.2⟩

theorem take_mono (n : Nat) (st : DSt) : MonoOk st (take n st) := by
  simp only [take, takeMut]
  by_cases hc : st.pos + n > st.input.length
  · rw [if_pos hc]
    exact monoOk_error st _
  · rw [if_neg hc]
    intro a st1 h
    injection h with h
    injection h with h1 h2
    subst h2
    exact ⟨rfl, Nat.le_add_right _ _⟩

theorem read_u32_mono (st : DSt) : MonoOk st (read_u32 st) := by
  simp only [read_u32]
  refine monoOk_bind (take_mono 4 st) ?_
  rintro bs st1 _
  exact monoOk_here st1 _

theorem read_i32_mono (st : DSt) : MonoOk st (read_i32 st) := by
  simp only [read_i32]
  refine monoOk_bind (take_mono 4 st) ?_
  rintro bs st1 _
  exact monoOk_here st1 _

theorem read_u64_mono (st : DSt) : MonoOk st (read_u64 st) := by
  simp only [read_u64]
  refine monoOk_bind (take_mono 8 st) ?_
  rintro bs st1 _
  exact monoOk_here st1 _

theorem read_i64_mono (st : DSt) : MonoOk st (read_i64 st) := by
  simp only [read_i64]
  refine monoOk_bind (take_mono 8 st) ?_
  rintro bs st1 _
  exact monoOk_here st1 _

theorem read_padded_bytes_mono (n : Nat) (st : DSt) :
    MonoOk st (read_padded_bytes n st) := by
  simp only [read_padded_bytes]
  refine monoOk_bind (take_mono n st) ?_
  rintro data st1 _
  split
  · refine monoOk_bind (take_mono _ st1) ?_
    rintro junk st2 _
    exact monoOk_here st2 _
  · exact monoOk_here st1 _

theorem read_variable_opaque_mono (st : DSt) :
    MonoOk st ( read_variable_opaque st) := by
  simp only [ read_variable_opaque]
  refine monoOk_bind (read_u32_mono st) ?_
  rintro n st1 _
  exact read_padded_bytes_mono n st1

mutual
/-- Every successful decode leaves the input untouched and never moves the
cursor backwards. -/
theorem de_mono (t : Ty) (st : DSt) : MonoOk st (de t st) := by
  cases t with
  | tBool =>
    simp only [de]
    refine monoOk_bind (read_u32_mono st) ?_
    rintro w st1 _
    match w with
    | 0 => exact monoOk_here st1 _
    | 1 => exact monoOk_here st1 _
    | v + 2 => exact monoOk_error st1 _
  | tU8 =>
    simp only [de]
    refine monoOk_bind (read_u32_mono st) ?_
    rintro w st1 _
    exact monoOk_here st1 _
  | tU16 =>
    simp only [de]
    refine monoOk_bind (read_u32_mono st) ?_
    rintro w st1 _
    exact monoOk_here st1 _
  | tU32 =>
    simp only [de]
    refine monoOk_bind (read_u32_mono st) ?_
    rintro w st1 _
    exact monoOk_here st1 _
  | tU64 =>
    simp only [de]
    refine monoOk_bind (read_u64_mono st) ?_
    rintro w st1 _
    exact monoOk_here st1 _
  | tI8 =>
    simp only [de]
    refine monoOk_bind (read_i32_mono st) ?_
    rintro x st1 _
    exact monoOk_here st1 _
  | tI16 =>
    simp only [de]
    refine monoOk_bind (read_i32_mono st) ?_
    rintro x st1 _
    exact monoOk_here st1 _
  | tI32 =>
    simp only [de]
    refine monoOk_bind (read_i32_mono st) ?_
    rintro x st1 _
    exact monoOk_here st1 _
  | tI64 =>
    simp only [de]
    refine monoOk_bind (read_i64_mono st) ?_
    rintro x st1 _
    exact monoOk_here st1 _
  | tF32 =>
    simp only [de]
    refine monoOk_bind (take_mono 4 st) ?_
    rintro bs st1 _
    exact monoOk_here st1 _
  | tF64 =>
    simp only [de]
    refine monoOk_bind (take_mono 8 st) ?_
    rintro bs st1 _
    exact monoOk_here st1 _
  | tChar =>
    simp only [de]
    refine monoOk_bind (read_u32_mono st) ?_
    rintro w st1 _
    split
    · exact monoOk_here st1 _
    · exact monoOk_error st1 _
  | tString =>
    simp only [de]
    refine monoOk_bind (read_variable_opaque_mono st) ?_
    rintro bs st1 _
    split
    · exact monoOk_here st1 _
    · exact monoOk_error st1 _
  | tBytes =>
    simp only [de]
    refine monoOk_bind (read_variable_opaque_mono st) ?_
    rintro bs st1 _
    exact monoOk_here st1 _
  | tUnit =>
    simp only [de]
    exact monoOk_here st _
  | tOpt t1 =>
    simp only [de]
    refine monoOk_bind (read_u32_mono st) ?_
    rintro w st1 _
    match w with
    | 0 => exact monoOk_here st1 _
    | 1 =>
      refine monoOk_bind (de_mono t1 st1) ?_
      rintro v st2 _
      exact monoOk_here st2 _
    | v + 2 => exact monoOk_error st1 _
  | tNewtype t1 =>
    simp only [de]
    refine monoOk_bind (de_mono t1 st) ?_
    rintro v st1 _
    exact monoOk_here st1 _
  | tFixedOpaque n =>
    simp only [de]
    refine monoOk_bind (read_padded_bytes_mono n st) ?_
    rintro bs st1 _
    exact monoOk_here st1 _
  | tSeq t1 =>
    simp only [de]
    refine monoOk_bind (read_u32_mono st) ?_
    rintro c st1 _
    refine monoOk_bind (deMany_mono t1 c st1) ?_
    rintro es st2 _
    exact monoOk_here st2 _
  | tMap k1 v1 =>
    simp only [de]
    refine monoOk_bind (read_u32_mono st) ?_
    rintro c st1 _
    refine monoOk_bind (dePairs_mono k1 v1 c st1) ?_
    rintro ps st2 _
    exact monoOk_here st2 _
  | tTuple ts =>
    simp only [de]
    refine monoOk_bind (deFields_mono ts st) ?_
    rintro fs st1 _
    exact monoOk_here st1 _
  | tStruct ts =>
    simp only [de]
    refine monoOk_bind (deFields_mono ts st) ?_
    rintro fs st1 _
    exact monoOk_here st1 _
  | tEnum arms =>
    simp only [de]
    refine monoOk_bind (read_u32_mono st) ?_
    rintro idx st1 _
    exact deArms_mono arms idx idx st1
termination_by (2 * sizeOf t, 0)

/-- deFields analogue of de_mono. -/
theorem deFields_mono (ts : Tys) (st : DSt) : MonoOk st (deFields ts st) := by
  cases ts with
  | nil =>
    simp only [deFields]
    exact monoOk_here st _
  | cons t ts1 =>
    simp only [deFields]
    refine monoOk_bind (de_mono t st) ?_
    rintro v st1 _
    refine monoOk_bind (deFields_mono ts1 st1) ?_
    rintro vs st2 _
    exact monoOk_here st2 _
termination_by (2 * sizeOf ts, 0)

/-- deMany analogue of de_mono. -/
theorem deMany_mono (t : Ty) (n : Nat) (st : DSt) :
    MonoOk st (deMany t n st) := by
  cases n with
  | zero =>
    simp only [deMany]
    exact monoOk_here st _
  | succ n1 =>
    simp only [deMany]
    refine monoOk_bind (de_mono t st) ?_
    rintro v st1 _
    refine monoOk_bind (deMany_mono t n1 st1) ?_
    rintro vs st2 _
    exact monoOk_here st2 _
termination_by (2 * sizeOf t + 1, n)

/-- dePairs analogue of de_mono. -/
theorem dePairs_mono (k v : Ty) (n : Nat) (st : DSt) :
    MonoOk st (dePairs k v n st) := by
  cases n with
  | zero =>
    simp only [dePairs]
    exact monoOk_here st _
  | succ n1 =>
    simp only [dePairs]
    refine monoOk_bind (de_mono k st) ?_
    rintro kv st1 _
    refine monoOk_bind (de_mono v st1) ?_
    rintro vv st2 _
    refine monoOk_bind (dePairs_mono k v n1 st2) ?_
    rintro ps st3 _
    exact monoOk_here st3 _
termination_by (2 * (sizeOf k + sizeOf v) + 1, n)

/-- deArms analogue of de_mono. -/
theorem deArms_mono (arms : Arms) (i idx : Nat) (st : DSt) :
    MonoOk st (deArms arms i idx st) := by
  cases arms with
  | nil =>
    simp only [deArms]
    exact monoOk_error st _
  | cons a rest =>
    cases i with
    | zero =>
      cases a with
      | unitArm => simp only [deArms]; exact monoOk_here st _
      | newtypeArm t1 =>
        simp only [deArms]
        refine monoOk_bind (de_mono t1 st) ?_
        rintro v st1 _
        exact monoOk_here st1 _
      | tupleArm ts =>
        simp only [deArms]
        refine monoOk_bind (deFields_mono ts st) ?_
        rintro fs st1 _
        exact monoOk_here st1 _
      | structArm ts =>
        simp only [deArms]
        refine monoOk_bind (deFields_mono ts st) ?_
        rintro fs st1 _
        exact monoOk_here st1 _
    | succ i1 =>
      simp only [deArms]
      exact deArms_mono rest i1 idx st
termination_by (2 * sizeOf arms, 0)
end

-- ── Accumulator shift for the Vec sink ─────────────────────────────────────

theorem nonFailing_appendW_prepend (acc : List Nat) :
    NonFailing appendW (fun l => acc ++ l) := by
  intro s c
  exact ⟨s ++ c, rfl, (List.append_assoc acc s c).symm⟩

/-- Serializing onto a Vec that already holds acc yields acc followed by
the fresh serialization, and fails identically. -/
theorem ser_append_shift (v : Value) (acc : List Nat) :
    serVal appendW acc v =
      (serVal appendW [] v).map (fun bs => acc ++ bs) := by
  have hs := sim_val v appendW (fun l => acc ++ l)
    (nonFailing_appendW_prepend acc) []
  rw [List.append_nil] at hs
  cases hx : serVal appendW [] v with
  | ok bs =>
    cases hy : serVal appendW acc v with
    | ok out =>
      obtain ⟨s1, hx1, hf1⟩ := hs.1 out hy
      rw [hx] at hx1
      injection hx1 with hx1
      subst hx1
      simp only at hf1
      simp only [Except.map, ← hf1]
    | error e =>
      have hcontra := hs.2 e hy
      rw [hx] at hcontra
      exact absurd hcontra (by simp)
  | error e =>
    cases hy : serVal appendW acc v with
    | ok out =>
      obtain ⟨s1, hx1, _⟩ := hs.1 out hy
      rw [hx] at hx1
      exact absurd hx1 (by simp)
    | error e1 =>
      have he := hs.2 e1 hy
      rw [hx] at he
      injection he with he
      simp only [Except.map, he]

-- ── Helpers for the sequence length counterexample ─────────────────────────

theorem length_replicate_vals (n : Nat) (v : Value) :
    Values.length (Values.replicate n v) = n := by
  induction n with
  | zero => rfl
  | succ n1 ih => simp [Values.replicate, Values.length, ih]

theorem serVals_replicate_vUnit (n : Nat) :
    ∀ acc, serVals appendW acc (Values.replicate n .vUnit) = .ok acc := by
  induction n with
  | zero => intro acc; rfl
  | succ n1 ih =>
    intro acc
    simp only [Values.replicate, serVals, serVal, ok_bind]
    exact ih acc

-- ════════════════════════════════════════════════════════════════════════
-- Claim theorems
-- ════════════════════════════════════════════════════════════════════════

/-- C1.  Round-trip: for every value v whose type has a bijective host
representation (captured by wf: narrow integers in range, valid Unicode
scalars, valid UTF-8 strings, byte contents in range, counts below 2^32,
enum indices naming an existing arm, and maps taken as their entry
sequence), deserializing the bytes produced by serialization yields the
original value: from_bytes (to_bytes v) = Ok v. -/
theorem roundtrip_from_bytes_to_bytes (t : Ty) (v : Value) (bs : List Nat)
    (hwf : wf t v = true) (hser : to_bytes v = .ok bs) :
    from_bytes t bs = .ok v := by
  obtain ⟨out, hs, hdec⟩ := round_val v t hwf
  have hout : to_bytes v = .ok out := by
    have := hs []
    simpa [to_bytes] using this
  rw [hout] at hser
  injection hser with hser
  subst hser
  have hde := hdec out 0 [] (by omega) (by simp)
  simp only [from_bytes, hde]

/-- C1 witness: the u32 value 5 round-trips through the wire image
00 00 00 05. -/
theorem roundtrip_from_bytes_to_bytes_witness :
    from_bytes .tU32 [0, 0, 0, 5] = .ok (.vU32 5) :=
  roundtrip_from_bytes_to_bytes .tU32 (.vU32 5) [0, 0, 0, 5]
    (by decide) (by rfl)

/-- C2.  Fixed-opaque override: the struct
(seq_id = 7 : u32, other = [1..12] fixed-opaque) encodes to exactly the 16
bytes 00 00 00 07 01 .. 0C — the 12 array bytes raw, with no length prefix
and no per-byte promotion — and decoding those 16 bytes at the struct
shape reconstructs the value. -/
theorem fixed_opaque_sixteen_bytes :
    to_bytes (.vTuple (.cons (.vU32 7)
        (.cons (.vFixedOpaque [1, 2, 3, 4, 5, 6, 7, 8, 9, 10, 11, 12])
          .nil))) =
      .ok [0, 0, 0, 7, 1, 2, 3, 4, 5, 6, 7, 8, 9, 10, 11, 12] ∧
    from_bytes (.tStruct (.cons .tU32 (.cons (.tFixedOpaque 12) .nil)))
        [0, 0, 0, 7, 1, 2, 3, 4, 5, 6, 7, 8, 9, 10, 11, 12] =
      .ok (.vTuple (.cons (.vU32 7)
        (.cons (.vFixedOpaque [1, 2, 3, 4, 5, 6, 7, 8, 9, 10, 11, 12])
          .nil))) := by
  constructor
  · rfl
  · simp [from_bytes, de, deFields, read_u32, read_padded_bytes, take,
      takeMut, beToNat, ok_bind]

/-- C3.  Alignment invariant: every successful to_bytes output has length
a multiple of 4, and the padding emitted by write_padded_bytes to reach
that alignment consists exclusively of 0x00 bytes. -/
theorem alignment_invariant :
    (∀ (v : Value) (bs : List Nat), to_bytes v = .ok bs →
      bs.length % 4 = 0) ∧
    (∀ acc data : List Nat,
      write_padded_bytes appendW acc data =
        .ok (acc ++ (data ++ List.replicate (padLen data.length) 0))) := by
  constructor
  · intro v bs h
    obtain ⟨bs1, heq, hm⟩ := serVal_len v [] bs h
    simp only [List.nil_append] at heq
    rw [heq]
    exact hm
  · exact write_padded_bytes_append

/-- C3 witness: the 8-byte image of the 2-byte string carries two zero
padding bytes and has length divisible by 4. -/
theorem alignment_invariant_witness :
    ([0, 0, 0, 2, 72, 105, 0, 0] : List Nat).length % 4 = 0 :=
  alignment_invariant.1 (.vStr [72, 105]) [0, 0, 0, 2, 72, 105, 0, 0]
    (by rfl)

/-- C4 counterexample: a sequence of 2^32 unit values — a declared count
exceeding 2^32 − 1 — does NOT make the encoder fail with LengthOverflow:
to_bytes succeeds and writes the truncated 4-byte count 0, misrepresenting
the length.  The overflow check exists only in write_opaque_variable. -/
theorem seq_count_overflow_not_checked :
    Values.length (Values.replicate (2 ^ 32) .vUnit) = 2 ^ 32 ∧
    to_bytes (.vSeq (Values.replicate (2 ^ 32) .vUnit)) =
      .ok [0, 0, 0, 0] := by
  refine ⟨length_replicate_vals _ _, ?_⟩
  simp only [to_bytes, serVal, write_u32_append, ok_bind,
    serVals_replicate_vUnit, length_replicate_vals, List.nil_append]
  norm_num [u32ToBytes]

/-- C4 amended: for sequences and maps the encoder performs no length
check and cannot fail at the prefix: it writes as the 4-byte count the
declared length reduced modulo 2^32 (so a count of at most 2^32 − 1 is
written exactly), then the elements. -/
theorem seq_map_count_prefix_mod :
    (∀ (es : Values) (acc : List Nat), ∃ pre,
      serVal appendW acc (.vSeq es) = serVals appendW (acc ++ pre) es ∧
      pre.length = 4 ∧ beToNat pre = Values.length es % 2 ^ 32) ∧
    (∀ (ps : Pairs) (acc : List Nat), ∃ pre,
      serVal appendW acc (.vMap ps) = serPairs appendW (acc ++ pre) ps ∧
      pre.length = 4 ∧ beToNat pre = Pairs.length ps % 2 ^ 32) := by
  constructor
  · intro es acc
    exact ⟨u32ToBytes (Values.length es),
      by simp only [serVal, write_u32_append, ok_bind],
      u32ToBytes_length _, beToNat_u32ToBytes _⟩
  · intro ps acc
    exact ⟨u32ToBytes (Pairs.length ps),
      by simp only [serVal, write_u32_append, ok_bind],
      u32ToBytes_length _, beToNat_u32ToBytes _⟩

/-- C5.  Streaming encoder equivalence: on any non-failing sink (every
write succeeds and appends its chunk to the absorbed stream f), to_writer
absorbs exactly the byte sequence that to_bytes returns, and the two entry
points fail together with the same error. -/
theorem to_writer_matches_to_bytes {σ : Type} (w : Writer σ)
    (f : σ → List Nat) (hw : NonFailing w f) (v : Value) (s : σ) :
    (∀ bs, to_bytes v = .ok bs →
      ∃ s1, to_writer w s v = .ok s1 ∧ f s1 = f s ++ bs) ∧
    (∀ e, to_bytes v = .error e → to_writer w s v = .error e) := by
  have hs := sim_val v w f hw s
  have hshift := ser_append_shift v (f s)
  constructor
  · intro bs h
    have hy : serVal appendW (f s) v = .ok (f s ++ bs) := by
      rw [hshift]
      simp only [to_bytes] at h
      rw [h, Except.map]
    obtain ⟨s1, h1, h2⟩ := hs.1 (f s ++ bs) hy
    exact ⟨s1, h1, h2⟩
  · intro e h
    have hy : serVal appendW (f s) v = .error e := by
      rw [hshift]
      simp only [to_bytes] at h
      rw [h, Except.map]
    exact hs.2 e hy

/-- C5 witness: on the fresh Vec sink the streaming writer absorbs
exactly 00 00 00 07 for the u32 value 7. -/
theorem to_writer_matches_to_bytes_witness :
    ∃ s1, to_writer appendW [] (.vU32 7) = .ok s1 ∧
      s1 = ([] : List Nat) ++ [0, 0, 0, 7] :=
  (to_writer_matches_to_bytes appendW (fun l => l)
      (fun s c => ⟨s ++ c, rfl, rfl⟩) (.vU32 7) []).1
    [0, 0, 0, 7] (by rfl)

/-- C6.  Narrow-int truncation on decode: the 4-byte word 0x00000100 read
into an 8-bit unsigned field yields 0x00 by low-byte arithmetic cast, and
0x000000FF yields 0xFF. -/
theorem narrow_u8_truncation :
    from_bytes .tU8 [0, 0, 1, 0] = .ok (.vU8 0) ∧
    from_bytes .tU8 [0, 0, 0, 0xFF] = .ok (.vU8 0xFF) := by
  constructor
  · simp [from_bytes, de, read_u32, take, takeMut, beToNat, ok_bind]
  · simp [from_bytes, de, read_u32, take, takeMut, beToNat, ok_bind]

/-- C7.  Variable-opaque length overflow: for every slice longer than
2^32 − 1, write_opaque_variable fails with LengthOverflow carrying the
saturated value u32::MAX in both fields; the result is the same error for
every sink and sink state, the guard sitting before any write. -/
theorem variable_opaque_overflow {σ : Type} (w : Writer σ) (s : σ)
    (bs : List Nat) (h : bs.length > 2 ^ 32 - 1) :
    write_opaque_variable w s bs =
      .error (.LengthOverflow (2 ^ 32 - 1) (2 ^ 32 - 1)) := by
  simp only [write_opaque_variable, if_pos h]

/-- C7 witness: a slice of 2^32 zero bytes overflows with the saturated
error, on the Vec sink. -/
theorem variable_opaque_overflow_witness :
    write_opaque_variable appendW [] (List.replicate (2 ^ 32) 0) =
      .error (.LengthOverflow (2 ^ 32 - 1) (2 ^ 32 - 1)) :=
  variable_opaque_overflow appendW [] _
    (by simp only [List.length_replicate]; omega)

/-- C8.  Padding leniency: the slice decoder returns the n data bytes and
a cursor independent of the padding contents (two buffers differing only
in padding decode identically); the reader decoder drops the padding chunk
it pulls; no decode path ever returns InvalidPadding. -/
theorem padding_never_inspected :
    (∀ (n : Nat) (data pad input tail : List Nat) (pos : Nat),
      data.length = n → pad.length = padLen n → pos ≤ input.length →
      input.drop pos = data ++ (pad ++ tail) →
      read_padded_bytes n ⟨input, pos⟩ =
        .ok (data, ⟨input, pos + n + padLen n⟩)) ∧
    (∀ (ρ : Type) (rd : ReadSrc ρ) (n : Nat) (r r1 r2 : ρ)
      (data junk : List Nat),
      rd r n = .ok (data, r1) → n % 4 ≠ 0 →
      rd r1 (4 - n % 4) = .ok (junk, r2) →
      reader_read_padded_bytes rd n r = .ok (data, r2)) ∧
    (∀ (t : Ty) (st : DSt) (e : Error),
      de t st = .error e → e ≠ .InvalidPadding) := by
  refine ⟨?_, ?_, ?_⟩
  · intro n data pad input tail pos h1 h2 h3 h4
    exact read_padded_bytes_spec h1 h2 h3 h4
  · intro ρ rd n r r1 r2 data junk h1 h2 h3
    simp only [reader_read_padded_bytes, h1, ok_bind]
    rw [if_pos h2]
    simp only [h3, ok_bind]
  · intro t st e h
    exact de_noPad t st e h

/-- C8 witness: a 2-byte datum followed by the nonzero padding 09 09
decodes exactly as with zero padding, on both decoder flavours, and a
decoder error is never InvalidPadding. -/
theorem padding_never_inspected_witness :
    read_padded_bytes 2 ⟨[0, 0, 72, 105, 9, 9], 2⟩ =
      .ok ([72, 105], ⟨[0, 0, 72, 105, 9, 9], 6⟩) ∧
    reader_read_padded_bytes
        (fun (s : List Nat) n => Except.ok (s.take n, s.drop n)) 2
        [72, 105, 9, 9] =
      .ok ([72, 105], ([] : List Nat)) ∧
    Error.InvalidBool 5 ≠ Error.InvalidPadding := by
  refine ⟨?_, ?_, ?_⟩
  · exact padding_never_inspected.1 2 [72, 105] [9, 9]
      [0, 0, 72, 105, 9, 9] [] 2 (by rfl) (by rfl) (by norm_num) (by rfl)
  · exact padding_never_inspected.2.1 (List Nat)
      (fun s n => Except.ok (s.take n, s.drop n)) 2
      [72, 105, 9, 9] [9, 9] [] [72, 105] [9, 9]
      (by rfl) (by norm_num) (by rfl)
  · exact padding_never_inspected.2.2 .tBool ⟨[0, 0, 0, 5], 0⟩
      (.InvalidBool 5)
      (by simp [de, read_u32, take, takeMut, beToNat, ok_bind])

/-- C10.  EOF atomicity of the slice cursor: take fails with
UnexpectedEof exactly when fewer than n bytes remain; on that failure the
cursor is untouched (so remaining is the whole unread tail); on success
the cursor advances by exactly n; and every successful decode operation
leaves the input identical and the cursor at or beyond its start. -/
theorem take_eof_atomicity :
    (∀ (n : Nat) (st : DSt),
      (takeMut n st).1 = .error .UnexpectedEof ↔
        st.pos + n > st.input.length) ∧
    (∀ (n : Nat) (st : DSt), st.pos + n > st.input.length →
      takeMut n st = (.error .UnexpectedEof, st)) ∧
    (∀ (n : Nat) (st : DSt) (bs : List Nat) (st1 : DSt),
      takeMut n st = (.ok bs, st1) →
      st1.input = st.input ∧ st1.pos = st.pos + n) ∧
    (∀ (t : Ty) (st : DSt) (v : Value) (st1 : DSt),
      de t st = .ok (v, st1) →
      st1.input = st.input ∧ st.pos ≤ st1.pos) := by
  refine ⟨?_, ?_, ?_, ?_⟩
  · intro n st
    simp only [takeMut]
    by_cases hc : st.pos + n > st.input.length
    · rw [if_pos hc]
      simpa using hc
    · rw [if_neg hc]
      constructor
      · intro h
        exact absurd h (by simp)
      · intro h
        exact absurd h hc
  · intro n st hc
    simp only [takeMut, if_pos hc]
  · intro n st bs st1 h
    rw [takeMut] at h
    by_cases hc : st.pos + n > st.input.length
    · rw [if_pos hc] at h
      injection h with h1 _
      exact absurd h1 (by simp)
    · rw [if_neg hc] at h
      injection h with h1 h2
      rw [← h2]
      exact ⟨rfl, rfl⟩
  · intro t st v st1 h
    exact de_mono t st v st1 h

/-- C10 witness: taking 5 from a 3-byte buffer fails leaving the cursor
at 0; taking 2 advances to 2; decoding a u32 moves the cursor forward. -/
theorem take_eof_atomicity_witness :
    takeMut 5 ⟨[1, 2, 3], 0⟩ = (.error .UnexpectedEof, ⟨[1, 2, 3], 0⟩) ∧
    ((⟨[1, 2, 3], 2⟩ : DSt).input = ([1, 2, 3] : List Nat) ∧
      (⟨[1, 2, 3], 2⟩ : DSt).pos = 0 + 2) ∧
    ((⟨[0, 0, 0, 7], 4⟩ : DSt).input = ([0, 0, 0, 7] : List Nat) ∧
      (0 : Nat) ≤ (⟨[0, 0, 0, 7], 4⟩ : DSt).pos) := by
  refine ⟨?_, ?_, ?_⟩
  · exact take_eof_atomicity.2.1 5 ⟨[1, 2, 3], 0⟩ (by norm_num)
  · exact take_eof_atomicity.2.2.1 2 ⟨[1, 2, 3], 0⟩ [1, 2] ⟨[1, 2, 3], 2⟩
      (by rfl)
  · exact take_eof_atomicity.2.2.2 .tU32 ⟨[0, 0, 0, 7], 0⟩ (.vU32 7)
      ⟨[0, 0, 0, 7], 4⟩
      (by simp [de, read_u32, take, takeMut, beToNat, ok_bind])

/-- C9.  Trailing bytes are ignored: from_bytes never checks that the
input was fully consumed, so appending any suffix to a round-tripping wire
image leaves the decoded value unchanged, and only from_bytes_partial
exposes the unread tail. -/
theorem trailing_bytes_ignored (t : Ty) (v : Value) (bs suffix : List Nat)
    (hwf : wf t v = true) (hser : to_bytes v = .ok bs) :
    from_bytes t (bs ++ suffix) = .ok v ∧
    from_bytes_partial t (bs ++ suffix) = .ok (v, suffix) := by
  obtain ⟨out, hs, hdec⟩ := round_val v t hwf
  have hout : to_bytes v = .ok out := by
    have := hs []
    simpa [to_bytes] using this
  rw [hout] at hser
  injection hser with hser
  subst hser
  have hde := hdec (out ++ suffix) 0 suffix (by omega) (by simp)
  constructor
  · simp only [from_bytes, hde]
  · simp only [ from_bytes_partial, hde, DSt.remaining]
    rw [Nat.zero_add, List.drop_left]

/-- C9 witness: the u32 wire image 00 00 00 01 followed by the stray byte
09 still decodes to 1, and the partial decoder returns the tail 09. -/
theorem trailing_bytes_ignored_witness :
    from_bytes .tU32 ([0, 0, 0, 1] ++ [9]) = .ok (.vU32 1) ∧
    from_bytes_partial .tU32 ([0, 0, 0, 1] ++ [9]) = .ok (.vU32 1, [9]) :=
  trailing_bytes_ignored .tU32 (.vU32 1) [0, 0, 0, 1] [9]
    (by decide) (by rfl)

end XdrSerde
